import Mathlib

/-!
Verification of the Context-Forge core against its specification.

The definitions below are a shallow embedding of the TypeScript sources:

* `src/types.ts` — the data model (`StateNode`, `CodeSymbol`, `FileIndex`);
* `src/storage/state-file.ts` (the `StateStorage` class backed by the
  SQLite tables `state_nodes`, `code_symbols`, `file_index`) — each table
  is modelled as a Lean list of row records kept in rowid (insertion)
  order; `INSERT OR REPLACE` deletes the conflicting row and appends the
  new one at the end, exactly as SQLite assigns a fresh largest rowid;
* `src/ast/indexer.ts` — the incremental indexer, with the line-oriented
  pattern rules hand-translated scanner by scanner (each scanner carries
  the original regular expression in its doc comment, including the
  leftmost-match and greedy/backtracking behaviour of the JS engine);
* the file watcher (`FileWatcher`) — its debounce-timer bookkeeping is
  modelled as a transition system in which `setTimeout`/`clearTimeout`
  manipulate an explicit set of live timers.

Modelling conventions, stated once:
* JS timestamps (`Date.now()`) are `Nat` parameters;
* `crypto.createHash("md5")` is an external library call; the digest is a
  `hash : String → String` parameter of the indexer functions;
* `path.relative(projectRoot, filePath)` is the identity here because all
  paths are given relative to the project root (the walk produces such
  paths with `projectRoot = ""`);
* `metadata` is carried as its serialized JSON text (`JSON.parse` after
  `JSON.stringify` of a record is the identity for the values involved);
* SQLite `ORDER BY timestamp DESC` is modelled by a stable insertion
  sort on the scan order; SQLite itself leaves the order of ties
  unspecified, and no theorem below depends on the tie order.
-/

deriving instance DecidableEq for Except

namespace ContextForge

/-- The `StateNode.type` values of `types.ts`. -/
inductive NodeType where
  | decision
  | fact
  | summary
deriving DecidableEq

/-- The TEXT stored in the `type` column for a `NodeType`. -/
def NodeType.str : NodeType → String
  | .decision => "decision"
  | .fact => "fact"
  | .summary => "summary"

/-- `types.ts` `StateNode`.  Optional fields are `Option`s defaulting to
`none` (absent in JS). -/
structure StateNode where
  id : String
  type : NodeType
  content : String
  timestamp : Nat
  supersedes : Option String := none
  metadata : Option String := none
  tags : Option (List String) := none
  createdAt : Option Nat := none
  lastVerified : Option Nat := none
  citations : Option (List String) := none
  relatedTo : Option (List String) := none
  priority : Option Nat := none
deriving DecidableEq

/-- One row of the `state_nodes` table (`state-file.ts` SCHEMA): columns
`id, type, content, timestamp, supersedes, metadata`. -/
structure StateNodeRow where
  id : String
  type : NodeType
  content : String
  timestamp : Nat
  supersedes : Option String
  metadata : Option String
deriving DecidableEq

/-- The `CodeSymbol.type` values of `types.ts`. -/
inductive SymbolType where
  | cls
  | fn
  | variable
  | imprt
  | exprt
  | interface
  | typeAlias
deriving DecidableEq

/-- The TEXT stored in the `type` column for a `SymbolType`. -/
def SymbolType.str : SymbolType → String
  | .cls => "class"
  | .fn => "function"
  | .variable => "variable"
  | .imprt => "import"
  | .exprt => "export"
  | .interface => "interface"
  | .typeAlias => "type"

/-- `types.ts` `CodeSymbol`; also one row of the `code_symbols` table
(the `dependencies`/`dependents` JSON round-trip is the identity). -/
structure CodeSymbol where
  id : String
  name : String
  type : SymbolType
  filePath : String
  startLine : Nat
  endLine : Nat
  signature : Option String := none
  dependencies : List String := []
  dependents : List String := []
deriving DecidableEq

/-- `types.ts` `FileIndex`; also one row of the `file_index` table. -/
structure FileIndex where
  path : String
  hash : String
  lastIndexed : Nat
  symbols : List String
deriving DecidableEq

/-- The three tables of `state.db`, each in rowid (insertion) order. -/
structure Storage where
  stateNodes : List StateNodeRow := []
  codeSymbols : List CodeSymbol := []
  fileIndex : List FileIndex := []
deriving DecidableEq

/-- JS `value || null` applied to an optional string: `undefined` and the
empty string are falsy and are stored as SQL NULL. -/
def jsOrNull : Option String → Option String
  | some s => if s = "" then none else some s
  | none => none

/-- `StateStorage.saveStateNode`: `INSERT OR REPLACE INTO state_nodes`
with the six columns `(id, type, content, timestamp, supersedes || null,
metadata ? JSON.stringify(metadata) : null)`.  The typed fields `tags`,
`createdAt`, `lastVerified`, `citations`, `relatedTo` and `priority` of
the argument do not appear in the statement. -/
def saveStateNode (node : StateNode) (st : Storage) : Storage :=
  { st with stateNodes :=
      (st.stateNodes.filter (fun r => !(r.id == node.id))) ++
      [{ id := node.id, type := node.type, content := node.content,
         timestamp := node.timestamp, supersedes := jsOrNull node.supersedes,
         metadata := node.metadata }] }

/-- `StateStorage.rowToStateNode`: rebuilds a `StateNode` from the six
row columns; the remaining fields are never read back. -/
def rowToStateNode (row : StateNodeRow) : StateNode :=
  { id := row.id, type := row.type, content := row.content,
    timestamp := row.timestamp, supersedes := row.supersedes,
    metadata := row.metadata }

/-- `StateStorage.getStateNode`: `SELECT * FROM state_nodes WHERE id = ?`
(`stmt.get` returns the first matching row or `undefined`). -/
def getStateNode (st : Storage) (id : String) : Option StateNode :=
  (st.stateNodes.find? (fun r => r.id == id)).map rowToStateNode

/-- The subquery `SELECT supersedes FROM state_nodes WHERE supersedes IS
NOT NULL`. -/
def supersededIds (st : Storage) : List String :=
  st.stateNodes.filterMap (·.supersedes)

/-- Insertion step of the model of `ORDER BY timestamp DESC`: place a row
before the first strictly older row. -/
def insertTsDesc (r : StateNodeRow) : List StateNodeRow → List StateNodeRow
  | [] => [r]
  | x :: xs => if x.timestamp < r.timestamp then r :: x :: xs else x :: insertTsDesc r xs

/-- Sort rows by `timestamp` descending (model of `ORDER BY timestamp
DESC`; stable on the scan order, ties being unspecified in SQLite). -/
def sortTsDesc : List StateNodeRow → List StateNodeRow
  | [] => []
  | r :: rs => insertTsDesc r (sortTsDesc rs)

/-- `StateStorage.getActiveDecisions`:
`SELECT * FROM state_nodes WHERE type = 'decision' AND id NOT IN
(SELECT supersedes FROM state_nodes WHERE supersedes IS NOT NULL)
ORDER BY timestamp DESC`, each row mapped through `rowToStateNode`. -/
def getActiveDecisions (st : Storage) : List StateNode :=
  (sortTsDesc (st.stateNodes.filter
      (fun r => r.type == NodeType.decision
        && !((supersededIds st).contains r.id)))).map rowToStateNode

/-- The row a symbol is stored as: `signature || null` nulls out an
empty signature, all other columns are taken as given. -/
def storedSym (symbol : CodeSymbol) : CodeSymbol :=
  { symbol with signature := jsOrNull symbol.signature }

/-- `StateStorage.saveCodeSymbol`: `INSERT OR REPLACE INTO code_symbols`
keyed by `id`. -/
def saveCodeSymbol (symbol : CodeSymbol) (st : Storage) : Storage :=
  { st with codeSymbols :=
      (st.codeSymbols.filter (fun y => !(y.id == symbol.id))) ++ [storedSym symbol] }

/-- `StateStorage.getSymbolsByFile`: `SELECT * FROM code_symbols WHERE
file_path = ?` in rowid order. -/
def getSymbolsByFile (st : Storage) (filePath : String) : List CodeSymbol :=
  st.codeSymbols.filter (fun s => s.filePath == filePath)

/-- `StateStorage.deleteSymbolsByFile`: `DELETE FROM code_symbols WHERE
file_path = ?`. -/
def deleteSymbolsByFile (st : Storage) (filePath : String) : Storage :=
  { st with codeSymbols := st.codeSymbols.filter (fun s => !(s.filePath == filePath)) }

/-- `StateStorage.saveFileIndex`: `INSERT OR REPLACE INTO file_index`
keyed by `path`. -/
def saveFileIndex (file : FileIndex) (st : Storage) : Storage :=
  { st with fileIndex := (st.fileIndex.filter (fun f => !(f.path == file.path))) ++ [file] }

/-- `StateStorage.getFileIndex`: `SELECT * FROM file_index WHERE path = ?`. -/
def getFileIndex (st : Storage) (filePath : String) : Option FileIndex :=
  st.fileIndex.find? (fun f => f.path == filePath)

/-- `StateStorage.deleteFileIndex`: `DELETE FROM file_index WHERE path = ?`. -/
def deleteFileIndex (st : Storage) (filePath : String) : Storage :=
  { st with fileIndex := st.fileIndex.filter (fun f => !(f.path == filePath)) }

/-- ASCII lowercasing of one character: this is SQLite `LOWER` (which
folds only `A`–`Z`) and agrees with JS `toLowerCase` on ASCII text. -/
def lowerChar (c : Char) : Char :=
  if c.toNat ≥ 65 ∧ c.toNat ≤ 90 then Char.ofNat (c.toNat + 32) else c

/-- ASCII lowercasing of a string. -/
def lowerStr (s : String) : String :=
  ⟨s.data.map lowerChar⟩

/-- The non-empty suffixes of a list followed by `[]` (for the head
list `s` itself this includes `s`). -/
def allSuffixes : List Char → List (List Char)
  | [] => [[]]
  | c :: t => (c :: t) :: allSuffixes t

/-- SQLite `LIKE` on a pattern and a subject: `%` matches any sequence,
`_` matches any single character, every other pattern character matches
itself (both sides are already lowercased by the caller, so the plain
character case is literal equality). -/
def likeMatch : List Char → List Char → Bool
  | [], s => s.isEmpty
  | p :: ps, s =>
    if p = '%' then (allSuffixes s).any (fun t => likeMatch ps t)
    else match s with
      | [] => false
      | c :: t => if p = '_' then likeMatch ps t else p == c && likeMatch ps t

/-- One element of the list returned by `StateStorage.searchContent`. -/
structure SearchEntry where
  type : String
  id : String
  content : String
deriving DecidableEq

/-- The template string
`{row.type}: {row.name} in {row.file_path}` followed by
` - {row.signature}` when `row.signature` is truthy (SQL NULL and the
empty string are falsy). -/
def symbolEntryContent (s : CodeSymbol) : String :=
  s.type.str ++ ": " ++ s.name ++ " in " ++ s.filePath ++
    (match s.signature with
      | some g => if g = "" then "" else " - " ++ g
      | none => "")

/-- `LOWER(content) LIKE searchTerm` for a state-node row. -/
def nodeLikeHit (pat : List Char) (r : StateNodeRow) : Bool :=
  likeMatch pat (lowerStr r.content).data

/-- `LOWER(name) LIKE searchTerm OR LOWER(signature) LIKE searchTerm`
for a symbol row; with a NULL signature the second disjunct is SQL NULL,
which does not satisfy the WHERE clause. -/
def symbolLikeHit (pat : List Char) (s : CodeSymbol) : Bool :=
  likeMatch pat (lowerStr s.name).data ||
    (match s.signature with
      | some g => likeMatch pat (lowerStr g).data
      | none => false)

/-- `StateStorage.searchContent`: the state-node query results (in scan
order) followed by the code-symbol query results, with
`searchTerm = "%" + query.toLowerCase() + "%"`. JS
`String.prototype.toLowerCase` is the Unicode-aware runtime built-in,
external to this repository, so (like the MD5 digest of the indexer) it
is passed in as the abstract parameter `jsLower`; the SQL `LOWER(...)`
on the compared columns is SQLite's ASCII-only fold, `lowerStr`. On
ASCII text the two agree; on non-ASCII text they need not. -/
def searchContent (jsLower : String → String) (st : Storage) (query : String) :
    List SearchEntry :=
  let pat : List Char := '%' :: (jsLower query).data ++ ['%']
  (st.stateNodes.filter (nodeLikeHit pat)).map
      (fun r => { type := r.type.str, id := r.id, content := r.content })
    ++ (st.codeSymbols.filter (symbolLikeHit pat)).map
      (fun s => { type := "symbol", id := s.id, content := symbolEntryContent s })

/-- The opening-brace character (written via its code point so that no
brace appears inside a literal). -/
def braceOpen : Char := Char.ofNat 123

/-- The closing-brace character. -/
def braceClose : Char := Char.ofNat 125

/-- The part of a path after its last `/` (POSIX basename, as Node's
`path.extname` uses it). -/
def baseNameOf (p : String) : String :=
  ⟨(p.data.reverse.takeWhile (fun c => !(c == '/'))).reverse⟩

/-- Node `path.extname`: the suffix of the basename starting at its last
dot, or `""` when the basename has no dot or its only dot is the leading
character; the basename `".."` yields `""` as in Node.  (None of the
remaining dots-only corner cases are exercised by any theorem below.) -/
def extnameOf (p : String) : String :=
  let b := (baseNameOf p).data
  if b = ['.', '.'] then "" else
  let afterDot := b.reverse.takeWhile (fun c => !(c == '.'))
  if afterDot.length + 1 < b.length then ⟨'.' :: afterDot.reverse⟩ else ""

/-- `indexer.ts` `ParserLanguage`. -/
inductive ParserLanguage where
  | javascript
  | typescript
  | python
deriving DecidableEq

/-- `indexer.ts` `SUPPORTED_EXTENSIONS` as an association list. -/
def SUPPORTED_EXTENSIONS : List (String × ParserLanguage) :=
  [(".js", .javascript), (".jsx", .javascript),
   (".ts", .typescript), (".tsx", .typescript), (".py", .python)]

/-- `SUPPORTED_EXTENSIONS[ext]` (`undefined` becomes `none`). -/
def lookupLang (ext : String) : Option ParserLanguage :=
  (SUPPORTED_EXTENSIONS.find? (fun e => e.1 == ext)).map (·.2)

/-- JS regex `\s` restricted to the ASCII range (space, tab, newline,
carriage return, vertical tab, form feed). -/
def isWsChar (c : Char) : Bool :=
  c == ' ' || c == '\t' || c == '\n' || c == '\r' || c == '\x0b' || c == '\x0c'

/-- JS regex `\w`, that is `[A-Za-z0-9_]`. -/
def isWordChar (c : Char) : Bool :=
  c.isAlphanum || c == '_'

/-- JS regex `'` or `"` (the character class `['"]`). -/
def isQuoteChar (c : Char) : Bool :=
  c == '\'' || c == '"'

/-- Match a literal character sequence, returning the rest. -/
def litChars : List Char → List Char → Option (List Char)
  | [], s => some s
  | c :: cs, d :: s => if c == d then litChars cs s else none
  | _ :: _, [] => none

/-- Match a literal string, returning the rest. -/
def litS (t : String) (s : List Char) : Option (List Char) :=
  litChars t.data s

/-- `\s+` whose following regex token cannot start with whitespace: the
greedy match consumes every whitespace character, with no backtracking
possible. -/
def ws1 : List Char → Option (List Char)
  | c :: s => if isWsChar c then some (s.dropWhile isWsChar) else none
  | [] => none

/-- `\s*` in the same disjoint-follower situation. -/
def wsMany (s : List Char) : List Char :=
  s.dropWhile isWsChar

/-- `(\w+)` (greedy; the following token is never a word character in
the patterns below, so no backtracking is possible). -/
def word1 (s : List Char) : Option (String × List Char) :=
  let w := s.takeWhile isWordChar
  if w.isEmpty then none else some (⟨w⟩, s.drop w.length)

/-- `KW\s+(\w+)` for a literal keyword `KW`. -/
def kwNameCore (kw : String) (t : List Char) : Option (String × List Char) := do
  let t ← litS kw t
  let t ← ws1 t
  word1 t

/-- `(?:KW\s+)?...`: the JS engine tries the optional group first and,
when the continuation fails, retries without it at the same index. -/
def optLitWs (kw : String) (core : List Char → Option (String × List Char))
    (s : List Char) : Option (String × List Char) :=
  match (do
    let t ← litS kw s
    let t ← ws1 t
    core t) with
  | some r => some r
  | none => core s

/-- `/(?:export\s+)?class\s+(\w+)/` at one index. -/
def jsClassAt : List Char → Option (String × List Char) :=
  optLitWs "export" (kwNameCore "class")

/-- `/(?:export\s+)?(?:async\s+)?function\s+(\w+)/` at one index. -/
def jsFunctionAt : List Char → Option (String × List Char) :=
  optLitWs "export" (optLitWs "async" (kwNameCore "function"))

/-- `const\s+(\w+)\s*=\s*(?:async\s*)?C` where the closing token `C` is
`\(` or `function`: after `=`, `\s*` is greedy-exact (the follower
starts with a non-space), then the optional `async\s*` is tried first
and dropped if `C` does not follow. -/
def constAssignCore (closing : List Char → Option (List Char)) (t : List Char) :
    Option (String × List Char) := do
  let t ← litS "const" t
  let t ← ws1 t
  let (g, t) ← word1 t
  let t := wsMany t
  let t ← litS "=" t
  let t := wsMany t
  let t ← (match (do
      let u ← litS "async" t
      let u := wsMany u
      closing u) with
    | some r => some r
    | none => closing t)
  pure (g, t)

/-- `/(?:export\s+)?const\s+(\w+)\s*=\s*(?:async\s*)?\(/` at one index. -/
def jsConstArrowAt : List Char → Option (String × List Char) :=
  optLitWs "export" (constAssignCore (litS "("))

/-- `/(?:export\s+)?const\s+(\w+)\s*=\s*(?:async\s*)?function/` at one
index. -/
def jsConstFunctionAt : List Char → Option (String × List Char) :=
  optLitWs "export" (constAssignCore (litS "function"))

/-- The negative lookahead `(?!\s*(?:async\s*)?\(|function)` tested
right after the `=`: the first alternative skips whitespace and an
optional `async\s*` before requiring `(`; the second requires
`function` with nothing before it. -/
def varLookaheadHit (t : List Char) : Bool :=
  (let u := wsMany t
   ((do
      let v ← litS "async" u
      let v := wsMany v
      litS "(" v) : Option (List Char)).isSome || (litS "(" u).isSome)
  || (litS "function" t).isSome

/-- `(?:const|let|var)\s+(\w+)\s*=(?!...)`: the three keyword
alternatives start with distinct characters, so plain first-match
alternation coincides with the JS engine's backtracking. -/
def jsVariableCore (t : List Char) : Option (String × List Char) := do
  let t ← litS "const" t <|> litS "let" t <|> litS "var" t
  let t ← ws1 t
  let (g, t) ← word1 t
  let t := wsMany t
  let t ← litS "=" t
  if varLookaheadHit t then none else pure (g, t)

/-- `/(?:export\s+)?(?:const|let|var)\s+(\w+)\s*=(?!\s*(?:async\s*)?\(|function)/`
at one index. -/
def jsVariableAt : List Char → Option (String × List Char) :=
  optLitWs "export" jsVariableCore

/-- `/export\s+\{\s*([^}]+)\s*\}/` at one index.  The greedy `[^}]+`
runs to the character before the closing brace (the trailing `\s*` then
matches the empty string); the leading `\s*` is greedy but backtracks by
exactly one character when the brace body consists of whitespace only,
since `[^}]+` still needs one character. -/
def jsExportBracesAt (s : List Char) : Option (String × List Char) := do
  let t ← litS "export" s
  let t ← ws1 t
  let t ← litChars [braceOpen] t
  let body := t.takeWhile (fun c => !(c == braceClose))
  let rest ← litChars [braceClose] (t.drop body.length)
  if body.isEmpty then none
  else
    let pad := (body.takeWhile isWsChar).length
    let k := min pad (body.length - 1)
    pure (⟨body.drop k⟩, rest)

/-- `/export\s+default\s+(\w+)/` at one index. -/
def jsExportDefaultAt (s : List Char) : Option (String × List Char) := do
  let t ← litS "export" s
  let t ← ws1 t
  let t ← litS "default" t
  let t ← ws1 t
  word1 t

/-- `/(?:export\s+)?interface\s+(\w+)/` at one index. -/
def tsInterfaceAt : List Char → Option (String × List Char) :=
  optLitWs "export" (kwNameCore "interface")

/-- `type\s+(\w+)\s*=` core of the type-alias pattern. -/
def tsTypeCore (t : List Char) : Option (String × List Char) := do
  let t ← litS "type" t
  let t ← ws1 t
  let (g, t) ← word1 t
  let t := wsMany t
  let t ← litS "=" t
  pure (g, t)

/-- `/(?:export\s+)?type\s+(\w+)\s*=/` at one index. -/
def tsTypeAliasAt : List Char → Option (String × List Char) :=
  optLitWs "export" tsTypeCore

/-- `/^class\s+(\w+)/` (anchored). -/
def pyClassAt : List Char → Option (String × List Char) :=
  kwNameCore "class"

/-- `/^(?:async\s+)?def\s+(\w+)/` (anchored). -/
def pyDefAt : List Char → Option (String × List Char) :=
  optLitWs "async" (kwNameCore "def")

/-- `/^(\w+)\s*=\s*(?!def|class)/` (anchored).  After the `=`, the
greedy `\s*` backtracks against the negative lookahead: with `j`
whitespace characters available, the lookahead can only reject when it
rejects at every retreat position, which happens exactly when `j = 0`
and `def` or `class` follows immediately; when `j > 0` and `def`/`class`
follows the whitespace, the match succeeds one character short of the
full whitespace run. -/
def pyVariableAt (s : List Char) : Option (String × List Char) := do
  let (g, t) ← word1 s
  let t := wsMany t
  let t ← litS "=" t
  let j := (t.takeWhile isWsChar).length
  let u := t.drop j
  if (litS "def" u).isSome || (litS "class" u).isSome then
    if j = 0 then none else pure (g, t.drop (j - 1))
  else pure (g, t.drop j)

/-- JS regex search without the global flag: try the matcher at every
start index from the left and return `match[0]` (the consumed text) and
the capture of the first index that matches. -/
def scanLeftmost (m : List Char → Option (String × List Char)) :
    List Char → Option (String × String)
  | [] =>
    match m [] with
    | some (g, _) => some ("", g)
    | none => none
  | c :: t =>
    match m (c :: t) with
    | some (g, rest) => some (⟨(c :: t).take ((c :: t).length - rest.length)⟩, g)
    | none => scanLeftmost m t

/-- An anchored (`^...`) regex: the matcher runs at index 0 only. -/
def anchoredMatch (m : List Char → Option (String × List Char)) (s : List Char) :
    Option (String × String) :=
  match m s with
  | some (g, rest) => some (⟨s.take (s.length - rest.length)⟩, g)
  | none => none

/-- One entry of the per-language pattern list: the compiled line
matcher together with the symbol kind it produces. -/
structure PatternRule where
  run : List Char → Option (String × String)
  type : SymbolType

/-- `indexer.ts` `jsPatterns`, in source order. -/
def jsPatterns : List PatternRule :=
  [⟨scanLeftmost jsClassAt, .cls⟩,
   ⟨scanLeftmost jsFunctionAt, .fn⟩,
   ⟨scanLeftmost jsConstArrowAt, .fn⟩,
   ⟨scanLeftmost jsConstFunctionAt, .fn⟩,
   ⟨scanLeftmost jsVariableAt, .variable⟩,
   ⟨scanLeftmost jsExportBracesAt, .exprt⟩,
   ⟨scanLeftmost jsExportDefaultAt, .exprt⟩]

/-- `indexer.ts` `tsPatterns` (`...jsPatterns` plus two). -/
def tsPatterns : List PatternRule :=
  jsPatterns ++
  [⟨scanLeftmost tsInterfaceAt, .interface⟩,
   ⟨scanLeftmost tsTypeAliasAt, .typeAlias⟩]

/-- `indexer.ts` `pyPatterns` (anchored). -/
def pyPatterns : List PatternRule :=
  [⟨anchoredMatch pyClassAt, .cls⟩,
   ⟨anchoredMatch pyDefAt, .fn⟩,
   ⟨anchoredMatch pyVariableAt, .variable⟩]

/-- `ASTIndexer.getPatternsForLanguage`. -/
def getPatternsForLanguage : ParserLanguage → List PatternRule
  | .javascript => jsPatterns
  | .typescript => tsPatterns
  | .python => pyPatterns

/-- `content.split("\n")` (an empty string yields `[""]`, a trailing
newline yields a trailing empty segment). -/
def splitNl : List Char → List (List Char)
  | [] => [[]]
  | c :: t =>
    match splitNl t with
    | [] => [[]]
    | r :: rs => if c == '\n' then [] :: r :: rs else (c :: r) :: rs

/-- JS `String.prototype.trim` on the ASCII whitespace range. -/
def trimAscii (s : String) : String :=
  ⟨((s.data.dropWhile isWsChar).reverse.dropWhile isWsChar).reverse⟩

/-- `indexer.ts` `SymbolMatch`. -/
structure SymbolMatch where
  name : String
  type : SymbolType
  startLine : Nat
  endLine : Nat
  signature : Option String
deriving DecidableEq

/-- The character loop of `ASTIndexer.findBlockEnd` over one line: `{`
and `:` increment the shared depth counter and set `started`, `}`
decrements. -/
def blockScanLine : Int × Bool → List Char → Int × Bool
  | acc, [] => acc
  | (count, started), c :: t =>
    if c == braceOpen || c == ':' then blockScanLine (count + 1, true) t
    else if c == braceClose then blockScanLine (count - 1, started) t
    else blockScanLine (count, started) t

/-- The line loop of `findBlockEnd`: stop at the first line after which
the counter has returned to zero having gone positive. -/
def findBlockEndAux : List (List Char) → Nat → Int → Bool → Option Nat
  | [], _, _, _ => none
  | l :: rest, i, count, started =>
    let p := blockScanLine (count, started) l
    if p.2 && p.1 == 0 then some (i + 1)
    else findBlockEndAux rest (i + 1) p.1 p.2

/-- `ASTIndexer.findBlockEnd`, including the
`min(startIndex + 10, lines.length)` fallback. -/
def findBlockEnd (lines : List (List Char)) (startIndex : Nat) : Nat :=
  match findBlockEndAux (lines.drop startIndex) startIndex 0 false with
  | some e => e
  | none => min (startIndex + 10) lines.length

/-- `ASTIndexer.parseWithRegex`: every pattern is tried on every line
(in source order, lines outer); a match contributes a symbol only when
`match[1]` is truthy, i.e. a non-empty capture. -/
def parseWithRegex (content : String) (language : ParserLanguage) : List SymbolMatch :=
  let lines := splitNl content.data
  let patterns := getPatternsForLanguage language
  (lines.enum.map (fun p =>
    patterns.filterMap (fun rule =>
      match rule.run p.2 with
      | some (m0, g) =>
        if g = "" then none
        else some { name := g, type := rule.type, startLine := p.1 + 1,
                    endLine := findBlockEnd lines p.1,
                    signature := some (trimAscii m0) }
      | none => none))).flatten

/-- `\s+from\s+['"]([^'"]+)['"]` tested at one position (the tail of the
JS import regex; opening and closing quote may be of different kinds, as
in the character class `['"]`). -/
def fromClauseAt (u : List Char) : Option String := do
  let u ← ws1 u
  let u ← litS "from" u
  let u ← ws1 u
  match u with
  | c :: rest =>
    if isQuoteChar c then
      let g := rest.takeWhile (fun d => !(isQuoteChar d))
      if g.isEmpty then none
      else
        match rest.drop g.length with
        | d :: _ => if isQuoteChar d then some ⟨g⟩ else none
        | [] => none
    else none
  | [] => none

/-- Rightmost-first search, mirroring a greedy `.*` before the searched
clause: the longest `.*` wins, i.e. the clause match closest to the end
of the line. -/
def lastSome (f : List Char → Option String) : List Char → Option String
  | [] => f []
  | c :: t =>
    match lastSome f t with
    | some r => some r
    | none => f (c :: t)

/-- `/import\s+.*\s+from\s+['"]([^'"]+)['"]/` at one start index:
`import` must be followed by at least one whitespace character (the
leading `\s+`); `.*` then spans to the from-clause, whose own `\s+`
begins strictly after that first whitespace character.  The greedy `.*`
selects the rightmost from-clause occurrence. -/
def jsImportAt (s : List Char) : Option String := do
  let t ← litS "import" s
  match t with
  | c :: rest => if isWsChar c then lastSome fromClauseAt rest else none
  | [] => none

/-- `/require\s*\(\s*['"]([^'"]+)['"]\s*\)/` at one start index; every
greedy piece has a follower disjoint from its class, so matching is
deterministic. -/
def requireAt (s : List Char) : Option String := do
  let t ← litS "require" s
  let t := wsMany t
  let t ← litS "(" t
  let t := wsMany t
  match t with
  | c :: rest =>
    if isQuoteChar c then
      let g := rest.takeWhile (fun d => !(isQuoteChar d))
      if g.isEmpty then none
      else
        match rest.drop g.length with
        | d :: rest2 =>
          if isQuoteChar d then
            match litS ")" (wsMany rest2) with
            | some _ => some ⟨g⟩
            | none => none
          else none
        | [] => none
    else none
  | [] => none

/-- Leftmost search for a matcher that already returns its capture. -/
def scanLeftmostStr (f : List Char → Option String) : List Char → Option String
  | [] => f []
  | c :: t =>
    match f (c :: t) with
    | some r => some r
    | none => scanLeftmostStr f t

/-- `/^from\s+(\S+)\s+import/` (anchored). -/
def pyFromImportAt (s : List Char) : Option String := do
  let t ← litS "from" s
  let t ← ws1 t
  let g := t.takeWhile (fun c => !(isWsChar c))
  if g.isEmpty then none
  else do
    let t ← ws1 (t.drop g.length)
    let _ ← litS "import" t
    pure ⟨g⟩

/-- `/^import\s+(\S+)/` (anchored). -/
def pyImportAt (s : List Char) : Option String := do
  let t ← litS "import" s
  let t ← ws1 t
  let g := t.takeWhile (fun c => !(isWsChar c))
  if g.isEmpty then none else pure ⟨g⟩

/-- `[...new Set(imports)]`: deduplicate keeping first occurrences. -/
def dedupFirst (l : List String) : List String :=
  l.foldl (fun acc x => if acc.contains x then acc else acc ++ [x]) []

/-- `ASTIndexer.extractImports`: the Python branch tries the
`from`-form first (`continue` on success), the JS/TS branch pushes an
`import ... from` hit and then a `require(...)` hit per line. -/
def extractImports (content : String) (language : ParserLanguage) : List String :=
  let lines := splitNl content.data
  let raw :=
    if language = ParserLanguage.python then
      lines.foldl (fun acc line =>
        match pyFromImportAt line with
        | some m => acc ++ [m]
        | none =>
          match pyImportAt line with
          | some m => acc ++ [m]
          | none => acc) []
    else
      lines.foldl (fun acc line =>
        let acc1 :=
          match scanLeftmostStr jsImportAt line with
          | some m => acc ++ [m]
          | none => acc
        match scanLeftmostStr requireAt line with
        | some m => acc1 ++ [m]
        | none => acc1) []
  dedupFirst raw

/-- `ASTIndexer.extractSymbols` with `relativePath = filePath` (paths
are project-root-relative throughout): the symbol id is the composite
`relativePath:name:startLine`; the per-file imports are then attached to
every symbol as its `dependencies`. -/
def extractSymbols (content : String) (filePath : String) (language : ParserLanguage) :
    List CodeSymbol :=
  let ms := parseWithRegex content language
  let symbols : List CodeSymbol := ms.map (fun m =>
    { id := filePath ++ ":" ++ m.name ++ ":" ++ toString m.startLine,
      name := m.name, type := m.type, filePath := filePath,
      startLine := m.startLine, endLine := m.endLine,
      signature := m.signature, dependencies := [], dependents := [] })
  let imports := extractImports content language
  symbols.map (fun s => { s with dependencies := imports })

/-- The `for` loop persisting the extracted symbols one by one. -/
def insertAll (symbols : List CodeSymbol) (st : Storage) : Storage :=
  symbols.foldl (fun acc s => saveCodeSymbol s acc) st

/-- The write path of `ASTIndexer.indexFile` (taken when no prior
`FileIndex` exists or the stored digest differs): delete the path's
symbols, extract, persist each symbol, then write a fresh `FileIndex`
whose `symbols` are the extracted ids and whose `lastIndexed` is the
current time. -/
def reindexWrite (h : String) (content relativePath : String)
    (language : ParserLanguage) (now : Nat) (st : Storage) :
    Except Unit Nat × Storage :=
  let st1 := deleteSymbolsByFile st relativePath
  let symbols := extractSymbols content relativePath language
  let st2 := insertAll symbols st1
  let fi : FileIndex :=
    { path := relativePath, hash := h, lastIndexed := now,
      symbols := symbols.map (·.id) }
  (Except.ok symbols.length, saveFileIndex fi st2)

/-- `ASTIndexer.indexFile`.  `hash` abstracts the MD5 hex digest of the
`crypto` library; `fs` abstracts `fs.readFileSync`, whose thrown error
is the `Except.error` case and leaves the store untouched; `now` is
`Date.now()`.  An unsupported extension returns 0 before any read; a
prior index with an identical digest returns the recorded symbol count
with no store access. -/
def indexFile (hash : String → String) (fs : String → Option String) (now : Nat)
    (filePath : String) (st : Storage) : Except Unit Nat × Storage :=
  match lookupLang (extnameOf filePath) with
  | none => (Except.ok 0, st)
  | some language =>
    match fs filePath with
    | none => (Except.error (), st)
    | some content =>
      let h := hash content
      let relativePath := filePath
      match getFileIndex st relativePath with
      | some existingIndex =>
        if existingIndex.hash == h then (Except.ok existingIndex.symbols.length, st)
        else reindexWrite h content relativePath language now st
      | none => reindexWrite h content relativePath language now st

/-- `ASTIndexer.removeFile`: delete the path's symbols and its
`FileIndex` record. -/
def removeFile (filePath : String) (st : Storage) : Storage :=
  deleteFileIndex (deleteSymbolsByFile st filePath) filePath

-- A directory tree for the walk of `ASTIndexer.collectFiles` (mutual
-- with the entry list so that all recursion stays structural).
mutual
/-- One directory entry: a plain file or a subdirectory. -/
inductive FsEntry where
  | file (name : String)
  | dir (name : String) (entries : FsList)
/-- A list of directory entries. -/
inductive FsList where
  | nil
  | cons (e : FsEntry) (rest : FsList)
end

/-- `indexer.ts` `IGNORE_DIRS`. -/
def IGNORE_DIRS : List String :=
  ["node_modules", ".git", "dist", "build", ".next", "__pycache__",
   ".context-forge", "coverage", ".vscode", ".idea"]

/-- `indexer.ts` `IGNORE_FILES`. -/
def IGNORE_FILES : List String :=
  ["package-lock.json", "yarn.lock", "pnpm-lock.yaml"]

/-- `path.join` for the simple relative shapes produced by the walk
(the root is `""`, so collected paths are project-root-relative). -/
def joinPath (dir name : String) : String :=
  if dir = "" then name else dir ++ "/" ++ name

/-- JS `name.startsWith(".")`, written on the character list so that it
evaluates by kernel reduction. -/
def startsWithDot (name : String) : Bool :=
  match name.data with
  | [] => false
  | c :: _ => c == '.'

/-- The per-entry skip tests of `collectFiles`, applied to every entry
kind in source order: leading dot, `IGNORE_DIRS`, `IGNORE_FILES`. -/
def skipEntryName (name : String) : Bool :=
  startsWithDot name || IGNORE_DIRS.contains name || IGNORE_FILES.contains name

-- `ASTIndexer.collectFiles`: walk in entry order, recursing into
-- non-skipped directories and keeping files with a supported extension.
mutual
/-- The body of the `for` loop of `collectFiles` for one entry. -/
def collectEntry (dir : String) : FsEntry → List String
  | .file name =>
    if skipEntryName name then []
    else if (lookupLang (extnameOf name)).isSome then [joinPath dir name] else []
  | .dir name entries =>
    if skipEntryName name then [] else collectFiles (joinPath dir name) entries
/-- `ASTIndexer.collectFiles` over an entry list. -/
def collectFiles (dir : String) : FsList → List String
  | .nil => []
  | .cons e rest => collectEntry dir e ++ collectFiles dir rest
end

/-- The `for` loop of `ASTIndexer.indexProject` over the collected
files: symbol counts accumulate; a thrown error propagates at once,
keeping the mutations already made (the store is external state). -/
def runFiles (hash : String → String) (fs : String → Option String) (now : Nat) :
    List String → Storage → Except Unit Nat × Storage
  | [], st => (Except.ok 0, st)
  | f :: rest, st =>
    match indexFile hash fs now f st with
    | (Except.ok n, st1) =>
      match runFiles hash fs now rest st1 with
      | (Except.ok m, st2) => (Except.ok (n + m), st2)
      | (Except.error e, st2) => (Except.error e, st2)
    | (Except.error e, st1) => (Except.error e, st1)

/-- `ASTIndexer.indexProject`: collect, then index every file; on
success return `(indexed, symbols) = (files.length, total)`. -/
def indexProject (hash : String → String) (fs : String → Option String) (now : Nat)
    (root : FsList) (st : Storage) : Except Unit (Nat × Nat) × Storage :=
  let files := collectFiles "" root
  match runFiles hash fs now files st with
  | (Except.ok total, st1) => (Except.ok (files.length, total), st1)
  | (Except.error e, st1) => (Except.error e, st1)

/-- One mutation of the store through the indexer, for stating
state-invariant claims: an `indexFile` call observing the given read
result at the given time, or a `removeFile` call. -/
inductive IndexOp where
  | indexOp (path : String) (content : Option String) (now : Nat)
  | removeOp (path : String)

/-- The path an operation addresses. -/
def IndexOp.path : IndexOp → String
  | .indexOp p _ _ => p
  | .removeOp p => p

/-- Apply one operation (the read of `indexFile` sees `content`). -/
def applyOp (hash : String → String) (st : Storage) : IndexOp → Storage
  | .indexOp p c now => (indexFile hash (fun _ => c) now p st).2
  | .removeOp p => removeFile p st

/-- Run a sequence of indexer operations from an empty store. -/
def runOps (hash : String → String) (ops : List IndexOp) : Storage :=
  ops.foldl (applyOp hash) {}

/-- The watcher's own `SUPPORTED_EXTENSIONS` array (`watcher.ts`). -/
def watcherSupportedExtensions : List String :=
  [".js", ".jsx", ".ts", ".tsx", ".py"]

/-- The observable state of a `FileWatcher`: `debounceTimers` is the
`Map` from path to timer handle; `pending` is the set of scheduled,
uncancelled, unfired timeouts together with the path captured by their
callback (in scheduling order); `nextTimer` produces fresh handles;
`indexedCalls` and `removedCalls` log the `indexFile`/`removeFile`
invocations (the watcher discards indexing failures, so only the call
itself is observable). -/
structure WatcherState where
  debounceTimers : List (String × Nat) := []
  pending : List (Nat × String) := []
  nextTimer : Nat := 0
  indexedCalls : List String := []
  removedCalls : List String := []
deriving DecidableEq

/-- `this.debounceTimers.get(path)`. -/
def timersGet (p : String) (m : List (String × Nat)) : Option Nat :=
  (m.find? (fun e => e.1 == p)).map (·.2)

/-- `this.debounceTimers.set(path, timer)`. -/
def timersSet (p : String) (t : Nat) (m : List (String × Nat)) : List (String × Nat) :=
  (m.filter (fun e => !(e.1 == p))) ++ [(p, t)]

/-- `this.debounceTimers.delete(path)`. -/
def timersDelete (p : String) (m : List (String × Nat)) : List (String × Nat) :=
  m.filter (fun e => !(e.1 == p))

/-- `clearTimeout(t)`: the timeout can no longer fire. -/
def clearTimeout (t : Nat) (pending : List (Nat × String)) : List (Nat × String) :=
  pending.filter (fun e => !(e.1 == t))

/-- `FileWatcher.handleFileChange`: unsupported extensions are ignored;
an existing timer for the path is cleared (reset, not stacked); a fresh
timeout is scheduled and recorded in the map. -/
def handleFileChange (p : String) (st : WatcherState) : WatcherState :=
  if !(watcherSupportedExtensions.contains (extnameOf p)) then st
  else
    let st1 :=
      match timersGet p st.debounceTimers with
      | some t => { st with pending := clearTimeout t st.pending }
      | none => st
    let t := st1.nextTimer
    { st1 with pending := st1.pending ++ [(t, p)],
               debounceTimers := timersSet p t st1.debounceTimers,
               nextTimer := t + 1 }

/-- A timeout elapsing: a cleared or already-fired handle does nothing
(it is no longer in `pending`); otherwise the callback of
`handleFileChange` runs — it deletes the path's map entry and invokes
`indexFile` (whose failure the watcher swallows). -/
def fireTimer (t : Nat) (st : WatcherState) : WatcherState :=
  match st.pending.find? (fun e => e.1 == t) with
  | none => st
  | some e =>
    { st with pending := clearTimeout t st.pending,
              debounceTimers := timersDelete e.2 st.debounceTimers,
              indexedCalls := st.indexedCalls ++ [e.2] }

/-- `FileWatcher.handleFileRemove`: clear and delete any pending timer
for the path, then call `removeFile` immediately. -/
def handleFileRemove (p : String) (st : WatcherState) : WatcherState :=
  if !(watcherSupportedExtensions.contains (extnameOf p)) then st
  else
    let st1 :=
      match timersGet p st.debounceTimers with
      | some t => { st with pending := clearTimeout t st.pending,
                            debounceTimers := timersDelete p st.debounceTimers }
      | none => st
    { st1 with removedCalls := st1.removedCalls ++ [p] }

/-- `FileWatcher.stop`: clear every timer held in the map, then clear
the map. -/
def stopWatcher (st : WatcherState) : WatcherState :=
  { st with
      pending := st.pending.filter
        (fun e => !(st.debounceTimers.any (fun d => d.2 == e.1))),
      debounceTimers := [] }

/-- The watcher's external stimuli: chokidar `add`/`change` events (both
routed to `handleFileChange`), `unlink` events, a timeout elapsing, and
`stop()`. -/
inductive WatchEvent where
  | change (path : String)
  | unlinkEv (path : String)
  | fire (timer : Nat)
  | stopEv

/-- One transition of the watcher. -/
def watchStep (st : WatcherState) : WatchEvent → WatcherState
  | .change p => handleFileChange p st
  | .unlinkEv p => handleFileRemove p st
  | .fire t => fireTimer t st
  | .stopEv => stopWatcher st

/-- Run the watcher from its initial state over an event sequence. -/
def runWatch (es : List WatchEvent) : WatcherState :=
  es.foldl watchStep {}

/-! ### Concrete stores used by several claims -/

/-- Two active decisions: `dh` (priority 5, older timestamp 100) saved
first, then `dl` (priority 1, newer timestamp 200). -/
def priorityExampleStore : Storage :=
  saveStateNode
    { id := "dl", type := .decision, content := "low priority decision",
      timestamp := 200, priority := some 1 }
    (saveStateNode
      { id := "dh", type := .decision, content := "high priority decision",
        timestamp := 100, priority := some 5 } {})

/-- The round-trip node of claim C2: tags, priority 4 and one citation. -/
def c2Node : StateNode :=
  { id := "n1", type := .fact, content := "video api uses chunked upload",
    timestamp := 100, tags := some ["api", "video"], priority := some 4,
    citations := some ["src/video/api.py:304"] }

/-! ### Ordering lemmas for `getActiveDecisions` -/

/-- Membership through one insertion step of the timestamp sort. -/
theorem mem_insertTsDesc {r x : StateNodeRow} {l : List StateNodeRow} :
    x ∈ insertTsDesc r l ↔ x = r ∨ x ∈ l := by
  induction l with
  | nil => simp [insertTsDesc]
  | cons y ys ih =>
    simp only [insertTsDesc]
    split
    · simp [List.mem_cons]
    · simp [List.mem_cons, ih]
      tauto

/-- Membership is preserved by the timestamp sort. -/
theorem mem_sortTsDesc {x : StateNodeRow} {l : List StateNodeRow} :
    x ∈ sortTsDesc l ↔ x ∈ l := by
  induction l with
  | nil => simp [sortTsDesc]
  | cons y ys ih => simp [sortTsDesc, mem_insertTsDesc, ih]

/-- Inserting keeps the list sorted by timestamp descending. -/
theorem pairwise_insertTsDesc {r : StateNodeRow} {l : List StateNodeRow}
    (h : l.Pairwise (fun a b => b.timestamp ≤ a.timestamp)) :
    (insertTsDesc r l).Pairwise (fun a b => b.timestamp ≤ a.timestamp) := by
  induction l with
  | nil => simp [insertTsDesc]
  | cons y ys ih =>
    rcases List.pairwise_cons.mp h with ⟨hy, hys⟩
    simp only [insertTsDesc]
    split
    · rename_i hlt
      refine List.pairwise_cons.mpr ⟨?_, h⟩
      intro z hz
      rcases List.mem_cons.mp hz with rfl | hz
      · exact le_of_lt hlt
      · exact le_trans (hy z hz) (le_of_lt hlt)
    · rename_i hge
      refine List.pairwise_cons.mpr ⟨?_, ih hys⟩
      intro z hz
      rcases mem_insertTsDesc.mp hz with rfl | hz
      · exact le_of_not_lt hge
      · exact hy z hz

/-- The sort used for `ORDER BY timestamp DESC` is sorted. -/
theorem pairwise_sortTsDesc (l : List StateNodeRow) :
    (sortTsDesc l).Pairwise (fun a b => b.timestamp ≤ a.timestamp) := by
  induction l with
  | nil => simp [sortTsDesc]
  | cons y ys ih => exact pairwise_insertTsDesc ih

/-- A row is a hit of the `getActiveDecisions` WHERE clause iff it is a
decision that no row supersedes. -/
theorem activeDecisionPred_iff (st : Storage) (r : StateNodeRow) :
    (r.type == NodeType.decision && !((supersededIds st).contains r.id)) = true ↔
      r.type = NodeType.decision ∧ ∀ r2 ∈ st.stateNodes, r2.supersedes ≠ some r.id := by
  have hmem : r.id ∈ supersededIds st ↔ ∃ r2 ∈ st.stateNodes, r2.supersedes = some r.id :=
    List.mem_filterMap
  simp only [Bool.and_eq_true, beq_iff_eq, Bool.not_eq_true',
    ← Bool.not_eq_true, List.elem_iff, hmem]
  constructor
  · rintro ⟨ht, hc⟩
    exact ⟨ht, fun r2 h2 hs => hc ⟨r2, h2, hs⟩⟩
  · rintro ⟨ht, hc⟩
    exact ⟨ht, fun hex => by
      rcases hex with ⟨r2, h2, hs⟩
      exact hc r2 h2 hs⟩

/-- C1 fails on the code: `getActiveDecisions` orders by
`ORDER BY timestamp DESC` alone (no `priority` is even stored), so with
D_low (priority 1, newer) and D_high (priority 5, older) both active it
returns `[D_low, D_high]`, not `[D_high, D_low]` as the claim states. -/
theorem C1_counterexample :
    (getActiveDecisions priorityExampleStore).map (·.id) = ["dl", "dh"] ∧
      (getActiveDecisions priorityExampleStore).map (·.id) ≠ ["dh", "dl"] := by
  decide

/-- C1 (amended): `getActiveDecisions` returns exactly the rows of kind
`decision` whose id appears as no row's `supersedes` value (the SQL
`NOT IN` also counts the row itself, hence "no row" rather than the
claim's "no other node"), mapped back to nodes and ordered by timestamp
descending; on the priority example it therefore returns
`[D_low, D_high]`. -/
theorem C1_amended :
    (∀ st : Storage, ∀ n : StateNode,
        n ∈ getActiveDecisions st ↔
          ∃ r ∈ st.stateNodes, r.type = NodeType.decision ∧
            (∀ r2 ∈ st.stateNodes, r2.supersedes ≠ some r.id) ∧ n = rowToStateNode r)
    ∧ (∀ st : Storage,
        (getActiveDecisions st).Pairwise (fun a b => b.timestamp ≤ a.timestamp))
    ∧ (getActiveDecisions priorityExampleStore).map (·.id) = ["dl", "dh"] := by
  refine ⟨fun st n => ?_, fun st => ?_, by decide⟩
  · unfold getActiveDecisions
    simp only [List.mem_map, mem_sortTsDesc, List.mem_filter]
    constructor
    · rintro ⟨r, ⟨hr, hp⟩, rfl⟩
      rcases (activeDecisionPred_iff st r).mp hp with ⟨ht, hs⟩
      exact ⟨r, hr, ht, hs, rfl⟩
    · rintro ⟨r, hr, ht, hs, rfl⟩
      exact ⟨r, ⟨hr, (activeDecisionPred_iff st r).mpr ⟨ht, hs⟩⟩, rfl⟩
  · unfold getActiveDecisions
    exact List.Pairwise.map _ (fun a b h => h) (pairwise_sortTsDesc _)

/-- The row the low-priority decision of the example store is stored as. -/
def dlRow : StateNodeRow :=
  { id := "dl", type := .decision, content := "low priority decision",
    timestamp := 200, supersedes := none, metadata := none }

/-- C1 witness: on the concrete example store, the first conjunct of the
amended claim produces membership of the low-priority decision, and the
result is sorted by timestamp descending. -/
theorem C1_amended_witness :
    rowToStateNode dlRow ∈ getActiveDecisions priorityExampleStore ∧
    (getActiveDecisions priorityExampleStore).Pairwise
      (fun a b => b.timestamp ≤ a.timestamp) :=
  ⟨(C1_amended.1 priorityExampleStore _).mpr
      ⟨dlRow, by decide, by decide, by decide, rfl⟩,
    C1_amended.2.1 priorityExampleStore⟩

/-- C2 fails on the code (a defect of the storage layer shipped in this
tree): `saveStateNode` persists only the six `state_nodes` columns, so
reading the saved node back returns it with `tags`, `priority` and
`citations` absent rather than with identical field values. -/
theorem C2_roundtrip_drops_fields :
    getStateNode (saveStateNode c2Node {}) "n1" =
      some { id := "n1", type := .fact, content := "video api uses chunked upload",
             timestamp := 100 } ∧
      getStateNode (saveStateNode c2Node {}) "n1" ≠ some c2Node := by
  decide

/-- C3: with exactly decisions D1 and D2 stored, D2 superseding D1,
`getActiveDecisions` returns exactly `[D2]`. -/
theorem C3_supersession (id1 id2 c1 c2 : String) (t1 t2 : Nat)
    (hne : id1 ≠ id2) (hid : id1 ≠ "") :
    getActiveDecisions
      (saveStateNode
        { id := id2, type := .decision, content := c2, timestamp := t2,
          supersedes := some id1 }
        (saveStateNode
          { id := id1, type := .decision, content := c1, timestamp := t1 } {})) =
      [{ id := id2, type := .decision, content := c2, timestamp := t2,
         supersedes := some id1 }] := by
  have h21 : (id2 == id1) = false := by simp [Ne.symm hne]
  have h12 : (id1 == id2) = false := by simp [hne]
  simp [getActiveDecisions, saveStateNode, jsOrNull, supersededIds, hid,
    h12, h21, decide_eq_false (Ne.symm hne), decide_eq_false hne,
    sortTsDesc, insertTsDesc, rowToStateNode, List.filter,
    List.filterMap, List.contains_cons]

/-- C3 witness at concrete ids, contents and timestamps. -/
theorem C3_supersession_witness :
    getActiveDecisions
      (saveStateNode
        { id := "d2", type := .decision, content := "use GraphQL", timestamp := 20,
          supersedes := some "d1" }
        (saveStateNode
          { id := "d1", type := .decision, content := "use REST", timestamp := 10 } {})) =
      [{ id := "d2", type := .decision, content := "use GraphQL", timestamp := 20,
         supersedes := some "d1" }] :=
  C3_supersession "d1" "d2" "use REST" "use GraphQL" 10 20
    (by decide) (by decide)

/-- C10: a path whose extension is not one of `.js`, `.jsx`, `.ts`,
`.tsx`, `.py` makes `indexFile` return 0 before any read or write: the
store is returned unchanged. -/
theorem C10_unsupported_extension_noop (hash : String → String)
    (fs : String → Option String) (now : Nat) (p : String) (st : Storage)
    (h : extnameOf p ∉ [".js", ".jsx", ".ts", ".tsx", ".py"]) :
    indexFile hash fs now p st = (Except.ok 0, st) := by
  simp only [List.mem_cons, List.not_mem_nil, or_false, not_or] at h
  have hlang : lookupLang (extnameOf p) = none := by
    simp [lookupLang, SUPPORTED_EXTENSIONS, List.find?,
      beq_eq_false_iff_ne.mpr (Ne.symm h.1),
      beq_eq_false_iff_ne.mpr (Ne.symm h.2.1),
      beq_eq_false_iff_ne.mpr (Ne.symm h.2.2.1),
      beq_eq_false_iff_ne.mpr (Ne.symm h.2.2.2.1),
      beq_eq_false_iff_ne.mpr (Ne.symm h.2.2.2.2)]
  simp [indexFile, hlang]

/-- C10 witness: a `.txt` file is ignored by `indexFile`. -/
theorem C10_witness :
    extnameOf "notes.txt" ∉ [".js", ".jsx", ".ts", ".tsx", ".py"] ∧
      indexFile (fun s => s) (fun _ => some "x = 1") 5 "notes.txt" {} =
        (Except.ok 0, ({} : Storage)) :=
  ⟨by decide,
    C10_unsupported_extension_noop (fun s => s) (fun _ => some "x = 1") 5
      "notes.txt" {} (by decide)⟩

/-! ### Free-text search (claim C8) -/

/-- The suffix enumeration used by the `%` case is exactly the suffix
relation. -/
theorem mem_allSuffixes {t s : List Char} : t ∈ allSuffixes s ↔ t <:+ s := by
  induction s with
  | nil => simp [allSuffixes, List.suffix_nil]
  | cons c s ih => simp [allSuffixes, List.suffix_cons_iff, ih]

/-- A bare `%` pattern accepts every subject. -/
theorem likeMatch_percent_nil (s : List Char) : likeMatch ['%'] s = true := by
  have : likeMatch ['%'] s = (allSuffixes s).any (fun t => likeMatch [] t) := by
    simp [likeMatch]
  rw [this]
  exact List.any_eq_true.mpr ⟨[], mem_allSuffixes.mpr List.nil_suffix, rfl⟩

/-- A pattern headed by `%` matches iff its tail matches some suffix. -/
theorem likeMatch_percent_cons (ps s : List Char) :
    likeMatch ('%' :: ps) s = true ↔ ∃ t, t <:+ s ∧ likeMatch ps t = true := by
  have : likeMatch ('%' :: ps) s = (allSuffixes s).any (fun t => likeMatch ps t) := by
    simp [likeMatch]
  rw [this, List.any_eq_true]
  constructor
  · rintro ⟨t, ht, hm⟩
    exact ⟨t, mem_allSuffixes.mp ht, hm⟩
  · rintro ⟨t, ht, hm⟩
    exact ⟨t, mem_allSuffixes.mpr ht, hm⟩

/-- A wildcard-free pattern followed by `%` matches exactly the subjects
it is a prefix of. -/
theorem likeMatch_plain_start (p : List Char) :
    ∀ s : List Char, (∀ c ∈ p, c ≠ '%' ∧ c ≠ '_') →
      (likeMatch (p ++ ['%']) s = true ↔ p <+: s) := by
  induction p with
  | nil =>
    intro s _
    simp [likeMatch_percent_nil, List.nil_prefix]
  | cons c p ih =>
    intro s hp
    have hc := hp c (List.mem_cons_self c p)
    have hrest : ∀ d ∈ p, d ≠ '%' ∧ d ≠ '_' :=
      fun d hd => hp d (List.mem_cons_of_mem c hd)
    cases s with
    | nil =>
      simp [likeMatch, if_neg hc.1]
    | cons d t =>
      simp only [List.cons_append, likeMatch, if_neg hc.1, if_neg hc.2]
      rw [List.cons_prefix_cons, ← ih t hrest]
      simp

/-- The LIKE pattern `%p%` with a wildcard-free `p` is substring search. -/
theorem likeMatch_contains (p s : List Char) (hp : ∀ c ∈ p, c ≠ '%' ∧ c ≠ '_') :
    (likeMatch ('%' :: p ++ ['%']) s = true ↔ p <:+: s) := by
  rw [List.cons_append, likeMatch_percent_cons]
  constructor
  · rintro ⟨t, hts, hm⟩
    exact List.infix_iff_prefix_suffix.mpr
      ⟨t, (likeMatch_plain_start p t hp).mp hm, hts⟩
  · intro h
    rcases List.infix_iff_prefix_suffix.mp h with ⟨t, hpt, hts⟩
    exact ⟨t, hts, (likeMatch_plain_start p t hp).mpr hpt⟩

/-- The spec's description of free-text search, as the comparison side
of claim C8: "case-insensitive substring match of a query against node
content and against symbol name/signature, returning a unified result
list" — substring containment of the ASCII-lowercased texts, nodes
first, then symbols. -/
def searchContentSpec (st : Storage) (query : String) : List SearchEntry :=
  let q := (lowerStr query).data
  (st.stateNodes.filter (fun r => decide (q <:+: (lowerStr r.content).data))).map
      (fun r => { type := r.type.str, id := r.id, content := r.content })
    ++ (st.codeSymbols.filter (fun s =>
        decide (q <:+: (lowerStr s.name).data) ||
          (match s.signature with
            | some g => decide (q <:+: (lowerStr g).data)
            | none => false))).map
      (fun s => { type := "symbol", id := s.id, content := symbolEntryContent s })

/-- The store of claim C8's counterexample: one fact with content
`abc`, no symbols. -/
def c8Store : Storage :=
  saveStateNode { id := "n1", type := .fact, content := "abc", timestamp := 5 } {}

/-- C8 fails on the code as universally quantified over queries: the
query is spliced into a SQL LIKE pattern, where `_` is a metacharacter
matching any single character; the query `_` therefore returns the node
with content `abc`, although `abc` does not contain `_` as a substring
(so the spec-described result would be empty). JS `toLowerCase` leaves
the ASCII string `_` unchanged, exactly as `lowerStr` does, so
instantiating `jsLower` with `lowerStr` computes the program's actual
pattern `%_%`. -/
theorem C8_counterexample :
    lowerStr "_" = "_" ∧
    searchContent lowerStr c8Store "_" =
        [{ type := "fact", id := "n1", content := "abc" }] ∧
      ¬ ((lowerStr "_").data <:+: (lowerStr "abc").data) ∧
      searchContentSpec c8Store "_" = [] := by
  decide

/-- C8 (amended): for every query on which JS `toLowerCase` agrees
with the ASCII fold `lowerStr` — which every ASCII query does, while
e.g. `Ä` (lowercased by JS to `ä`, left alone by SQLite `LOWER`) does
not — and whose lowercased text contains no SQL LIKE metacharacter
(`%` or `_`), `searchContent` returns exactly the substring hits the
spec describes (on ASCII-lowercased text): the state nodes whose
content contains the query, followed by the code symbols whose name or
non-null signature contains it, as one unified list. -/
theorem C8_amended (jsLower : String → String) (st : Storage) (query : String)
    (hjs : jsLower query = lowerStr query)
    (hq : ∀ c ∈ (lowerStr query).data, c ≠ '%' ∧ c ≠ '_') :
    searchContent jsLower st query = searchContentSpec st query := by
  have hnode : ∀ r ∈ st.stateNodes,
      nodeLikeHit ('%' :: (lowerStr query).data ++ ['%']) r =
        decide ((lowerStr query).data <:+: (lowerStr r.content).data) := by
    intro r _
    unfold nodeLikeHit
    rw [Bool.eq_iff_iff, decide_eq_true_eq]
    exact likeMatch_contains _ _ hq
  have hsym : ∀ s ∈ st.codeSymbols,
      symbolLikeHit ('%' :: (lowerStr query).data ++ ['%']) s =
        (decide ((lowerStr query).data <:+: (lowerStr s.name).data) ||
          (match s.signature with
            | some g => decide ((lowerStr query).data <:+: (lowerStr g).data)
            | none => false)) := by
    intro s _
    unfold symbolLikeHit
    cases s.signature with
    | none =>
      rw [Bool.eq_iff_iff]
      simp only [Bool.or_false, decide_eq_true_eq]
      exact likeMatch_contains _ _ hq
    | some g =>
      rw [Bool.eq_iff_iff]
      simp only [Bool.or_eq_true, decide_eq_true_eq]
      exact or_congr (likeMatch_contains _ _ hq) (likeMatch_contains _ _ hq)
  simp only [searchContent, searchContentSpec, hjs]
  rw [List.filter_congr hnode, List.filter_congr hsym]

/-- C8 witness: on the concrete store, the ASCII query `b` (on which JS
`toLowerCase` is the ASCII fold, so `jsLower` is instantiated with
`lowerStr`) has no wildcard and the two sides agree on the single
hit. -/
theorem C8_witness :
    lowerStr "b" = lowerStr "b" ∧
    (∀ c ∈ (lowerStr "b").data, c ≠ '%' ∧ c ≠ '_') ∧
      searchContent lowerStr c8Store "b" =
        [{ type := "fact", id := "n1", content := "abc" }] ∧
      searchContent lowerStr c8Store "b" = searchContentSpec c8Store "b" :=
  ⟨rfl, by decide, by decide, C8_amended lowerStr c8Store "b" rfl (by decide)⟩

/-! ### Store lemmas for the indexer (claims C4, C5, C6, C7) -/

/-- `storedSym` keeps the id. -/
theorem storedSym_id (s : CodeSymbol) : (storedSym s).id = s.id := rfl

/-- `storedSym` keeps the file path. -/
theorem storedSym_filePath (s : CodeSymbol) : (storedSym s).filePath = s.filePath := rfl

/-- Persisting symbols does not touch the `state_nodes` table. -/
theorem insertAll_stateNodes : ∀ (ss : List CodeSymbol) (st : Storage),
    (insertAll ss st).stateNodes = st.stateNodes
  | [], _ => rfl
  | s :: ss, st => insertAll_stateNodes ss (saveCodeSymbol s st)

/-- Persisting symbols does not touch the `file_index` table. -/
theorem insertAll_fileIndex : ∀ (ss : List CodeSymbol) (st : Storage),
    (insertAll ss st).fileIndex = st.fileIndex
  | [], _ => rfl
  | s :: ss, st => insertAll_fileIndex ss (saveCodeSymbol s st)

/-- Writing a `FileIndex` does not touch the `code_symbols` table. -/
theorem saveFileIndex_codeSymbols (fi : FileIndex) (st : Storage) :
    (saveFileIndex fi st).codeSymbols = st.codeSymbols := rfl

/-- Every row present after the insertion loop was present before or is
the stored form of an inserted symbol. -/
theorem mem_insertAll : ∀ (ss : List CodeSymbol) (st : Storage) (x : CodeSymbol),
    x ∈ (insertAll ss st).codeSymbols →
      x ∈ st.codeSymbols ∨ ∃ s ∈ ss, x = storedSym s
  | [], _, _, h => Or.inl h
  | s :: ss, st, x, h => by
    rcases mem_insertAll ss (saveCodeSymbol s st) x h with h1 | ⟨t, ht, rfl⟩
    · rcases List.mem_append.mp h1 with h2 | h2
      · exact Or.inl (List.mem_of_mem_filter h2)
      · exact Or.inr ⟨s, List.mem_cons_self s ss, List.mem_singleton.mp h2⟩
    · exact Or.inr ⟨t, List.mem_cons_of_mem s ht, rfl⟩

/-- A row whose id collides with no inserted symbol survives the
insertion loop. -/
theorem insertAll_keeps : ∀ (ss : List CodeSymbol) (st : Storage) (x : CodeSymbol),
    x ∈ st.codeSymbols → (∀ s ∈ ss, x.id ≠ s.id) →
      x ∈ (insertAll ss st).codeSymbols
  | [], _, _, hx, _ => hx
  | s :: ss, st, x, hx, hne =>
    insertAll_keeps ss _ x
      (List.mem_append.mpr (Or.inl (List.mem_filter.mpr
        ⟨hx, by simp [hne s (List.mem_cons_self s ss)]⟩)))
      (fun t ht => hne t (List.mem_cons_of_mem s ht))

/-- Every inserted id ends up on some stored row coming from the
inserted batch (`INSERT OR REPLACE` keeps the last row per id). -/
theorem insertAll_covers : ∀ (ss : List CodeSymbol) (st : Storage) (s0 : CodeSymbol),
    s0 ∈ ss → ∃ x, x ∈ (insertAll ss st).codeSymbols ∧ x.id = s0.id ∧
      ∃ t ∈ ss, x = storedSym t
  | [], _, s0, h => absurd h (List.not_mem_nil s0)
  | s :: ss, st, s0, h => by
    by_cases hdup : ∃ t ∈ ss, t.id = s0.id
    · rcases hdup with ⟨t, ht, hid⟩
      rcases insertAll_covers ss (saveCodeSymbol s st) t ht with
        ⟨x, hx, hxid, t2, ht2, hform⟩
      exact ⟨x, hx, by rw [hxid, hid], t2, List.mem_cons_of_mem s ht2, hform⟩
    · rcases List.mem_cons.mp h with rfl | hmem
      · refine ⟨storedSym s0, ?_, rfl, s0, List.mem_cons_self s0 ss, rfl⟩
        refine insertAll_keeps ss _ _
          (List.mem_append.mpr (Or.inr (List.mem_singleton.mpr rfl))) ?_
        intro t ht
        rw [storedSym_id]
        exact fun he => hdup ⟨t, ht, he.symm⟩
      · exact absurd ⟨s0, hmem, rfl⟩ hdup

/-- After `saveFileIndex`, the saved path reads back as the saved
record. -/
theorem getFileIndex_saveFileIndex (fi : FileIndex) (st : Storage) :
    getFileIndex (saveFileIndex fi st) fi.path = some fi := by
  unfold getFileIndex saveFileIndex
  rw [List.find?_append]
  have h1 : (st.fileIndex.filter (fun f => !(f.path == fi.path))).find?
      (fun f => f.path == fi.path) = none :=
    List.find?_eq_none.mpr (fun x hx => by
      have h2 := (List.mem_filter.mp hx).2
      simp at h2 ⊢
      exact h2)
  rw [h1]
  simp [List.find?]

/-- Membership after `deleteSymbolsByFile`. -/
theorem mem_deleteSymbolsByFile {st : Storage} {p : String} {x : CodeSymbol} :
    x ∈ (deleteSymbolsByFile st p).codeSymbols ↔
      x ∈ st.codeSymbols ∧ x.filePath ≠ p := by
  simp [deleteSymbolsByFile, List.mem_filter]

/-- C4: for a supported path with a stored `FileIndex`: (a) reading
content whose digest equals the stored hash makes `indexFile` a no-op
returning the recorded symbol count and leaving the whole store —
`FileIndex`, its `lastIndexed` timestamp and the stored symbols included
— unchanged; (b) reading any content other than the one whose digest is
stored (the digest being injective) takes the full re-extraction path:
the returned count is the fresh extraction's length and a new
`FileIndex` with the new digest, the new timestamp and the fresh symbol
ids is written for the path. -/
theorem C4_incremental_skip (hash : String → String) (fs : String → Option String)
    (now : Nat) (p : String) (st : Storage) (lang : ParserLanguage) (fi : FileIndex)
    (hlang : lookupLang (extnameOf p) = some lang)
    (hfi : getFileIndex st p = some fi) :
    (∀ c, fs p = some c → fi.hash = hash c →
        indexFile hash fs now p st = (Except.ok fi.symbols.length, st))
    ∧ (∀ c0 c, fs p = some c → fi.hash = hash c0 → c ≠ c0 →
        Function.Injective hash →
        (indexFile hash fs now p st).1 = Except.ok (extractSymbols c p lang).length
        ∧ getFileIndex (indexFile hash fs now p st).2 p =
            some { path := p, hash := hash c, lastIndexed := now,
                   symbols := (extractSymbols c p lang).map (·.id) }) := by
  constructor
  · intro c hc hh
    have hb : (fi.hash == hash c) = true := by simp [hh]
    simp [indexFile, hlang, hc, hfi, hb]
  · intro c0 c hc hh hne hinj
    have hb : (fi.hash == hash c) = false := by
      simp only [beq_eq_false_iff_ne, ne_eq]
      intro he
      exact hne (hinj (hh.symm.trans he)).symm
    have hix : indexFile hash fs now p st = reindexWrite (hash c) c p lang now st := by
      simp [indexFile, hlang, hc, hfi, hb]
    rw [hix]
    exact ⟨rfl, getFileIndex_saveFileIndex _ _⟩

/-- The store after indexing `f.js` containing `function v1() ...`. -/
def reindexV1Store : Storage :=
  (indexFile (fun s => s) (fun _ => some "function v1() \x7b\x7d") 10 "f.js" {}).2

/-- The `FileIndex` record that indexing run produces. -/
def v1FileIndex : FileIndex :=
  { path := "f.js", hash := "function v1() \x7b\x7d", lastIndexed := 10,
    symbols := ["f.js:v1:1"] }

/-- C4 witness: on the concrete store, an identical re-read is a no-op
(timestamp 10 kept, count 1 returned, store unchanged) and a changed
read writes the fresh index record. -/
theorem C4_witness :
    getFileIndex reindexV1Store "f.js" = some v1FileIndex ∧
    indexFile (fun s => s) (fun _ => some "function v1() \x7b\x7d") 99 "f.js"
        reindexV1Store = (Except.ok v1FileIndex.symbols.length, reindexV1Store) ∧
    getFileIndex (indexFile (fun s => s) (fun _ => some "function v2() \x7b\x7d") 99
          "f.js" reindexV1Store).2 "f.js" =
      some { path := "f.js", hash := "function v2() \x7b\x7d", lastIndexed := 99,
             symbols := (extractSymbols "function v2() \x7b\x7d" "f.js"
                ParserLanguage.javascript).map (·.id) } :=
  ⟨by decide,
    (C4_incremental_skip (fun s => s) (fun _ => some "function v1() \x7b\x7d") 99
        "f.js" reindexV1Store ParserLanguage.javascript v1FileIndex
        (by decide) (by decide)).1 "function v1() \x7b\x7d" rfl (by decide),
    ((C4_incremental_skip (fun s => s) (fun _ => some "function v2() \x7b\x7d") 99
        "f.js" reindexV1Store ParserLanguage.javascript v1FileIndex
        (by decide) (by decide)).2 "function v1() \x7b\x7d" "function v2() \x7b\x7d"
        rfl (by decide) (by decide) (fun a b h => h)).2⟩

/-! ### indexProject abort behaviour (claim C5) -/

/-- If the files before `f` all process without error and `f` is a
supported path whose read fails, the loop of `indexProject` stops at
`f`: the thrown error propagates, the updates made for the prefix are
kept, and the remaining files are never reached. -/
theorem runFiles_abort (hash : String → String) (fs : String → Option String) (now : Nat) :
    ∀ (pre post : List String) (f : String) (st st1 : Storage) (n : Nat)
      (lang : ParserLanguage),
      runFiles hash fs now pre st = (Except.ok n, st1) →
      lookupLang (extnameOf f) = some lang → fs f = none →
      runFiles hash fs now (pre ++ f :: post) st = (Except.error (), st1)
  | [], post, f, st, st1, n, lang, hpre, hlang, hfail => by
    have hst : st = st1 := congrArg Prod.snd hpre
    subst hst
    simp [runFiles, indexFile, hlang, hfail]
  | g :: pre, post, f, st, st1, n, lang, hpre, hlang, hfail => by
    rw [List.cons_append]
    rcases hg : indexFile hash fs now g st with ⟨r, stg⟩
    cases r with
    | error e =>
      simp only [runFiles, hg] at hpre
      exact absurd hpre (by simp)
    | ok k =>
      simp only [runFiles, hg] at hpre ⊢
      rcases hrest : runFiles hash fs now pre stg with ⟨r2, st2⟩
      rw [hrest] at hpre
      cases r2 with
      | error e => simp at hpre
      | ok m =>
        have hst : st2 = st1 := by
          have h2 := congrArg Prod.snd hpre
          simpa using h2
        subst hst
        rw [runFiles_abort hash fs now pre post f stg st2 m lang hrest hlang hfail]

/-- The project of claim C5's counterexample: two eligible files at the
root, the first unreadable. -/
def c5Tree : FsList :=
  .cons (.file "a.js") (.cons (.file "b.js") .nil)

/-- Its file system: `b.js` reads fine, everything else throws. -/
def c5fs : String → Option String :=
  fun p => if p = "b.js" then some "function g() \x7b\x7d" else none

/-- C5 fails on the code: `indexProject` has no per-file error handling,
so the read failure of `a.js` aborts it and the eligible, readable
`b.js` is never processed or counted. -/
theorem C5_counterexample :
    collectFiles "" c5Tree = ["a.js", "b.js"] ∧
    (indexProject (fun s => s) c5fs 7 c5Tree {}).1 = Except.error () ∧
    getFileIndex (indexProject (fun s => s) c5fs 7 c5Tree {}).2 "b.js" = none ∧
    getSymbolsByFile (indexProject (fun s => s) c5fs 7 c5Tree {}).2 "b.js" = [] := by
  decide

/-- C5 (amended): a read failure on one collected file aborts
`indexProject`: the error is surfaced, the store keeps exactly the
updates of the files walked before the failing one, and the files after
it are not processed. -/
theorem C5_amended (hash : String → String) (fs : String → Option String) (now : Nat)
    (root : FsList) (st st1 : Storage) (pre post : List String) (f : String)
    (n : Nat) (lang : ParserLanguage)
    (hsplit : collectFiles "" root = pre ++ f :: post)
    (hpre : runFiles hash fs now pre st = (Except.ok n, st1))
    (hlang : lookupLang (extnameOf f) = some lang)
    (hfail : fs f = none) :
    indexProject hash fs now root st = (Except.error (), st1) := by
  simp only [indexProject]
  rw [hsplit, runFiles_abort hash fs now pre post f st st1 n lang hpre hlang hfail]

/-- C5 witness: on the two-file project, the unreadable first file
aborts the run with the store still empty. -/
theorem C5_witness :
    indexProject (fun s => s) c5fs 7 c5Tree {} = (Except.error (), ({} : Storage)) :=
  C5_amended (fun s => s) c5fs 7 c5Tree {} {} [] ["b.js"] "a.js" 0
    ParserLanguage.javascript (by decide) rfl (by decide) (by decide)

/-! ### Re-index replacement (claim C6) -/

/-- The store after overwriting `f.js` with `function v2() ...` and
re-indexing. -/
def reindexV2Store : Storage :=
  (indexFile (fun s => s) (fun _ => some "function v2() \x7b\x7d") 20 "f.js"
    reindexV1Store).2

/-- C6: whenever `indexFile` takes the re-extraction path (no stored
index, or a differing digest), every symbol stored for the path
afterwards comes from the fresh extraction — all previously attributed
symbols are gone; in particular re-indexing `f.js` after its content
changed from `function v1() ...` to `function v2() ...` leaves exactly
one symbol, named `v2`, and none named `v1`. -/
theorem C6_reindex_replaces :
    (∀ (hash : String → String) (fs : String → Option String) (now : Nat)
        (p : String) (st : Storage) (lang : ParserLanguage) (c : String),
        lookupLang (extnameOf p) = some lang → fs p = some c →
        (∀ fi, getFileIndex st p = some fi → fi.hash ≠ hash c) →
        ∀ s ∈ getSymbolsByFile (indexFile hash fs now p st).2 p,
          ∃ s0 ∈ extractSymbols c p lang, s = storedSym s0)
    ∧ (getSymbolsByFile reindexV2Store "f.js").map (·.name) = ["v2"]
    ∧ "v1" ∉ (getSymbolsByFile reindexV2Store "f.js").map (·.name) := by
  refine ⟨?_, by decide, by decide⟩
  intro hash fs now p st lang c hlang hc hno s hs
  have hre : (indexFile hash fs now p st).2 = (reindexWrite (hash c) c p lang now st).2 := by
    cases hfi : getFileIndex st p with
    | none => simp [indexFile, hlang, hc, hfi]
    | some fi =>
      have hb : (fi.hash == hash c) = false := by
        simp only [beq_eq_false_iff_ne, ne_eq]
        exact hno fi hfi
      simp [indexFile, hlang, hc, hfi, hb]
  rw [hre] at hs
  have hs2 : s ∈ (insertAll (extractSymbols c p lang)
        (deleteSymbolsByFile st p)).codeSymbols ∧ (s.filePath == p) = true := by
    simpa [reindexWrite, getSymbolsByFile, saveFileIndex_codeSymbols,
      List.mem_filter] using hs
  rcases mem_insertAll _ _ _ hs2.1 with hIn | ⟨s0, hs0, rfl⟩
  · exact absurd (by simpa using hs2.2) (mem_deleteSymbolsByFile.mp hIn).2
  · exact ⟨s0, hs0, rfl⟩

/-- The row the re-index stores for `v2`. -/
def v2StoredRow : CodeSymbol :=
  { id := "f.js:v2:1", name := "v2", type := .fn, filePath := "f.js",
    startLine := 1, endLine := 1, signature := some "function v2" }

/-- C6 witness: the stored `v2` row is exactly a stored form of the
fresh extraction, via the theorem applied to the concrete re-index. -/
theorem C6_witness :
    v2StoredRow ∈ getSymbolsByFile reindexV2Store "f.js" ∧
    v2StoredRow ∈ (extractSymbols "function v2() \x7b\x7d" "f.js"
        ParserLanguage.javascript).map storedSym := by
  refine ⟨by decide, ?_⟩
  have h := C6_reindex_replaces.1 (fun s => s)
      (fun _ => some "function v2() \x7b\x7d") 20 "f.js" reindexV1Store
      ParserLanguage.javascript "function v2() \x7b\x7d" (by decide) rfl
      ?_ v2StoredRow (by decide)
  · rcases h with ⟨s0, hs0, heq⟩
    exact List.mem_map.mpr ⟨s0, hs0, heq.symm⟩
  · intro fi hfi
    have h0 : getFileIndex reindexV1Store "f.js" = some v1FileIndex := by decide
    rw [h0] at hfi
    cases hfi
    decide

/-! ### Per-file index consistency (claim C7) -/

/-- A string free of the id separator character `:`. -/
def noColon (s : String) : Prop :=
  ':' ∉ s.data

instance : DecidablePred noColon := fun s =>
  inferInstanceAs (Decidable (':' ∉ s.data))

/-- First-colon unambiguity: with colon-free heads, a composite splits
in only one way. -/
theorem colon_split : ∀ (p q r r2 : List Char), ':' ∉ p → ':' ∉ q →
    p ++ ':' :: r = q ++ ':' :: r2 → p = q ∧ r = r2
  | [], [], r, r2, _, _, h => by
    simp only [List.nil_append] at h
    exact ⟨rfl, by injection h⟩
  | [], c :: q, r, r2, _, hq, h => by
    simp only [List.nil_append, List.cons_append] at h
    injection h with h1 _
    subst h1
    exact absurd (List.mem_cons_self _ _) hq
  | c :: p, [], r, r2, hp, _, h => by
    simp only [List.cons_append, List.nil_append] at h
    injection h with h1 _
    subst h1
    exact absurd (List.mem_cons_self _ _) hp
  | c :: p, d :: q, r, r2, hp, hq, h => by
    simp only [List.cons_append] at h
    injection h with h1 h2
    subst h1
    have hp2 : ':' ∉ p := fun hm => hp (List.mem_cons_of_mem c hm)
    have hq2 : ':' ∉ q := fun hm => hq (List.mem_cons_of_mem c hm)
    rcases colon_split p q r r2 hp2 hq2 h2 with ⟨rfl, rfl⟩
    exact ⟨rfl, rfl⟩

/-- Two composite ids with colon-free path prefixes agree only when the
prefixes do. -/
theorem idSplit_path_eq {p q r r2 : String} (hp : noColon p) (hq : noColon q)
    (h : p ++ ":" ++ r = q ++ ":" ++ r2) : p = q := by
  have hd := congrArg String.data h
  simp only [String.data_append] at hd
  rw [List.append_assoc, List.append_assoc, List.singleton_append,
    List.singleton_append] at hd
  exact String.ext (colon_split _ _ _ _ hp hq hd).1

/-- Every extracted symbol carries the extraction path and a composite
id beginning with it. -/
theorem extractSymbols_shape (content p : String) (lang : ParserLanguage) :
    ∀ s ∈ extractSymbols content p lang,
      s.filePath = p ∧ ∃ r, s.id = p ++ ":" ++ r := by
  intro s hs
  unfold extractSymbols at hs
  simp only [List.mem_map] at hs
  rcases hs with ⟨s1, ⟨m, hm, rfl⟩, rfl⟩
  exact ⟨rfl, m.name ++ ":" ++ toString m.startLine, by simp [String.append_assoc]⟩

/-- Membership in the `file_index` table after `saveFileIndex`. -/
theorem mem_saveFileIndex {fi0 : FileIndex} {st : Storage} {fi : FileIndex} :
    fi ∈ (saveFileIndex fi0 st).fileIndex ↔
      (fi ∈ st.fileIndex ∧ fi.path ≠ fi0.path) ∨ fi = fi0 := by
  simp [saveFileIndex, List.mem_append, List.mem_filter]

/-- Membership in the `file_index` table after `removeFile`. -/
theorem mem_removeFile_fileIndex {st : Storage} {p : String} {fi : FileIndex} :
    fi ∈ (removeFile p st).fileIndex ↔ fi ∈ st.fileIndex ∧ fi.path ≠ p := by
  simp [removeFile, deleteFileIndex, deleteSymbolsByFile, List.mem_filter]

/-- Membership in the `code_symbols` table after `removeFile`. -/
theorem mem_removeFile_codeSymbols {st : Storage} {p : String} {x : CodeSymbol} :
    x ∈ (removeFile p st).codeSymbols ↔ x ∈ st.codeSymbols ∧ x.filePath ≠ p := by
  simp [removeFile, deleteFileIndex, deleteSymbolsByFile, List.mem_filter]

/-- The consistency invariant the indexer maintains, strengthened with
the id well-formedness needed to rule out cross-path `INSERT OR
REPLACE` clobbering: every `FileIndex` lists exactly the ids of the
symbols stored for its path, and every stored symbol has a colon-free
path, an id extending that path, and a `FileIndex` record for its
path. -/
def IndexInv (st : Storage) : Prop :=
  (∀ fi ∈ st.fileIndex, ∀ i, i ∈ fi.symbols ↔
    ∃ s ∈ st.codeSymbols, s.filePath = fi.path ∧ s.id = i)
  ∧ ∀ s ∈ st.codeSymbols,
      noColon s.filePath ∧ (∃ r, s.id = s.filePath ++ ":" ++ r) ∧
        ∃ fi ∈ st.fileIndex, fi.path = s.filePath

/-- The `FileIndex` record the write path produces. -/
def newFileIndex (h p : String) (lang : ParserLanguage) (content : String)
    (now : Nat) : FileIndex :=
  { path := p, hash := h, lastIndexed := now,
    symbols := (extractSymbols content p lang).map (·.id) }

/-- The write path preserves the invariant when its path is
colon-free. -/
theorem indexInv_reindexWrite (h content p : String) (lang : ParserLanguage)
    (now : Nat) (st : Storage) (hp : noColon p) (hinv : IndexInv st) :
    IndexInv (reindexWrite h content p lang now st).2 := by
  have hshape := extractSymbols_shape content p lang
  have hF3 : ∀ x ∈ (deleteSymbolsByFile st p).codeSymbols,
      ∀ s0 ∈ extractSymbols content p lang, x.id ≠ s0.id := by
    intro x hx s0 hs0 hid
    rcases mem_deleteSymbolsByFile.mp hx with ⟨hxst, hxp⟩
    rcases hinv.2 x hxst with ⟨hxnc, ⟨rx, hrx⟩, -⟩
    rcases hshape s0 hs0 with ⟨-, r0, hr0⟩
    exact hxp (idSplit_path_eq hxnc hp (hrx.symm.trans (hid.trans hr0)) : x.filePath = p)
  have hmemrows : ∀ x, x ∈ (reindexWrite h content p lang now st).2.codeSymbols ↔
      x ∈ (insertAll (extractSymbols content p lang)
        (deleteSymbolsByFile st p)).codeSymbols := by
    intro x
    exact Iff.rfl
  have hfix : (reindexWrite h content p lang now st).2.fileIndex =
      (st.fileIndex.filter (fun f => !(f.path == p))) ++
        [newFileIndex h p lang content now] := by
    show (saveFileIndex _ _).fileIndex = _
    unfold saveFileIndex
    rw [insertAll_fileIndex]
    rfl
  constructor
  · -- file-index side
    intro fi hfi i
    rw [hfix] at hfi
    rcases List.mem_append.mp hfi with hold | hnew
    · -- an entry for another path, untouched
      have hfi2 := List.mem_filter.mp hold
      have hne : fi.path ≠ p := by simpa using hfi2.2
      rw [(hinv.1 fi hfi2.1 i)]
      constructor
      · rintro ⟨s, hsst, hsp, hsi⟩
        have hs1 : s ∈ (deleteSymbolsByFile st p).codeSymbols :=
          mem_deleteSymbolsByFile.mpr ⟨hsst, by rw [hsp]; exact hne⟩
        refine ⟨s, insertAll_keeps _ _ s hs1 (hF3 s hs1), hsp, hsi⟩
      · rintro ⟨x, hx, hxp, hxi⟩
        rcases mem_insertAll _ _ _ hx with hx1 | ⟨s0, hs0, rfl⟩
        · exact ⟨x, (mem_deleteSymbolsByFile.mp hx1).1, hxp, hxi⟩
        · rcases hshape s0 hs0 with ⟨hs0p, -⟩
          rw [storedSym_filePath, hs0p] at hxp
          exact absurd hxp.symm hne
    · -- the freshly written entry
      have hfieq : fi = newFileIndex h p lang content now :=
        List.mem_singleton.mp hnew
      subst hfieq
      simp only [newFileIndex, List.mem_map]
      constructor
      · rintro ⟨s0, hs0, rfl⟩
        rcases insertAll_covers _ (deleteSymbolsByFile st p) s0 hs0 with
          ⟨x, hx, hxid, t, ht, rfl⟩
        rcases hshape t ht with ⟨htp, -⟩
        exact ⟨storedSym t, hx, by rw [storedSym_filePath, htp], hxid⟩
      · rintro ⟨x, hx, hxp, hxi⟩
        rcases mem_insertAll _ _ _ hx with hx1 | ⟨s0, hs0, rfl⟩
        · exact absurd hxp (mem_deleteSymbolsByFile.mp hx1).2
        · exact ⟨s0, hs0, by rw [← hxi, storedSym_id]⟩
  · -- symbol side
    intro x hx
    rcases mem_insertAll _ _ _ hx with hx1 | ⟨s0, hs0, rfl⟩
    · rcases mem_deleteSymbolsByFile.mp hx1 with ⟨hxst, hxp⟩
      rcases hinv.2 x hxst with ⟨hnc, hshp, fi, hfi, hfip⟩
      refine ⟨hnc, hshp, fi, ?_, hfip⟩
      rw [hfix]
      refine List.mem_append.mpr (Or.inl (List.mem_filter.mpr ⟨hfi, ?_⟩))
      simp [hfip, hxp]
    · rcases hshape s0 hs0 with ⟨hs0p, r0, hr0⟩
      refine ⟨?_, ?_, ?_⟩
      · rw [storedSym_filePath, hs0p]; exact hp
      · exact ⟨r0, by rw [storedSym_id, storedSym_filePath, hs0p, hr0]⟩
      · refine ⟨newFileIndex h p lang content now, ?_, ?_⟩
        · rw [hfix]; exact List.mem_append.mpr (Or.inr (List.mem_singleton.mpr rfl))
        · rw [storedSym_filePath, hs0p]
          rfl

/-- `indexFile` either leaves the store untouched (unsupported
extension, failed read, identical digest) or runs the write path. -/
theorem indexFile_snd_cases (hash : String → String) (fs : String → Option String)
    (now : Nat) (p : String) (st : Storage) :
    (indexFile hash fs now p st).2 = st ∨
      ∃ content lang, (indexFile hash fs now p st).2 =
        (reindexWrite (hash content) content p lang now st).2 := by
  unfold indexFile
  cases lookupLang (extnameOf p) with
  | none => exact Or.inl rfl
  | some lang =>
    cases fs p with
    | none => exact Or.inl rfl
    | some content =>
      dsimp only
      cases getFileIndex st p with
      | none => exact Or.inr ⟨content, lang, rfl⟩
      | some fi =>
        dsimp only
        cases fi.hash == hash content with
        | true => exact Or.inl rfl
        | false => exact Or.inr ⟨content, lang, rfl⟩

/-- `indexFile` preserves the invariant for colon-free paths. -/
theorem indexInv_indexFile (hash : String → String) (fs : String → Option String)
    (now : Nat) (p : String) (st : Storage) (hp : noColon p) (hinv : IndexInv st) :
    IndexInv (indexFile hash fs now p st).2 := by
  rcases indexFile_snd_cases hash fs now p st with he | ⟨content, lang, he⟩
  · rw [he]; exact hinv
  · rw [he]
    exact indexInv_reindexWrite (hash content) content p lang now st hp hinv

/-- `removeFile` preserves the invariant. -/
theorem indexInv_removeFile (p : String) (st : Storage) (hinv : IndexInv st) :
    IndexInv (removeFile p st) := by
  constructor
  · intro fi hfi i
    rcases mem_removeFile_fileIndex.mp hfi with ⟨hfist, hfip⟩
    rw [hinv.1 fi hfist i]
    constructor
    · rintro ⟨s, hsst, hsp, hsi⟩
      exact ⟨s, mem_removeFile_codeSymbols.mpr ⟨hsst, by rw [hsp]; exact hfip⟩, hsp, hsi⟩
    · rintro ⟨s, hs, hsp, hsi⟩
      exact ⟨s, (mem_removeFile_codeSymbols.mp hs).1, hsp, hsi⟩
  · intro s hs
    rcases mem_removeFile_codeSymbols.mp hs with ⟨hsst, hsp⟩
    rcases hinv.2 s hsst with ⟨hnc, hshp, fi, hfi, hfip⟩
    exact ⟨hnc, hshp, fi,
      mem_removeFile_fileIndex.mpr ⟨hfi, by rw [hfip]; exact hsp⟩, hfip⟩

/-- One indexer operation with a colon-free path preserves the
invariant. -/
theorem indexInv_applyOp (hash : String → String) (op : IndexOp) (st : Storage)
    (hop : noColon op.path) (hinv : IndexInv st) :
    IndexInv (applyOp hash st op) := by
  cases op with
  | indexOp p c now => exact indexInv_indexFile hash (fun _ => c) now p st hop hinv
  | removeOp p => exact indexInv_removeFile p st hinv

/-- The invariant holds along any colon-free run, from any invariant
state. -/
theorem indexInv_fold (hash : String → String) :
    ∀ (ops : List IndexOp) (st : Storage), IndexInv st →
      (∀ op ∈ ops, noColon op.path) →
      IndexInv (ops.foldl (applyOp hash) st)
  | [], _, hinv, _ => hinv
  | op :: ops, st, hinv, hops =>
    indexInv_fold hash ops (applyOp hash st op)
      (indexInv_applyOp hash op st (hops op (List.mem_cons_self op ops)) hinv)
      (fun o ho => hops o (List.mem_cons_of_mem op ho))

/-- The empty store satisfies the invariant. -/
theorem indexInv_empty : IndexInv {} := by
  constructor
  · intro fi hfi
    exact absurd hfi (List.not_mem_nil fi)
  · intro s hs
    exact absurd hs (List.not_mem_nil s)

/-- Claim C7 fails on the code as stated for every tracked path: symbol
ids are the string `path:name:line`, so the export capture `y.js:z` in
`x.js` and the function `z` in the (colon-containing but legal) path
`x.js:y.js` produce the same id; the second `INSERT OR REPLACE`
re-attributes the row, leaving `x.js`'s `FileIndex` listing an id for
which no symbol row with `file_path = "x.js"` exists. -/
theorem C7_counterexample :
    getFileIndex (runOps (fun s => s)
        [IndexOp.indexOp "x.js" (some "export \x7by.js:z\x7d") 10,
         IndexOp.indexOp "x.js:y.js" (some "function z() \x7b\x7d") 20]) "x.js" =
      some { path := "x.js", hash := "export \x7by.js:z\x7d", lastIndexed := 10,
             symbols := ["x.js:y.js:z:1"] } ∧
    getSymbolsByFile (runOps (fun s => s)
        [IndexOp.indexOp "x.js" (some "export \x7by.js:z\x7d") 10,
         IndexOp.indexOp "x.js:y.js" (some "function z() \x7b\x7d") 20]) "x.js" = [] := by
  decide

/-- C7 (amended): after any sequence of completed `indexFile` and
`removeFile` operations whose paths contain no `:` (which the
counterexample shows is needed), every tracked path's `FileIndex` lists
exactly the ids of the `CodeSymbol` rows stored for that path, and a
path with no `FileIndex` record (removed or never indexed) has no
stored symbols either. -/
theorem C7_amended (hash : String → String) (ops : List IndexOp)
    (hops : ∀ op ∈ ops, noColon op.path) :
    (∀ fi ∈ (runOps hash ops).fileIndex, ∀ i, i ∈ fi.symbols ↔
        ∃ s ∈ (runOps hash ops).codeSymbols, s.filePath = fi.path ∧ s.id = i)
    ∧ ∀ p, (∀ fi ∈ (runOps hash ops).fileIndex, fi.path ≠ p) →
        ∀ s ∈ (runOps hash ops).codeSymbols, s.filePath ≠ p := by
  have hinv : IndexInv (runOps hash ops) :=
    indexInv_fold hash ops {} indexInv_empty hops
  refine ⟨hinv.1, ?_⟩
  intro p hnofi s hs hsp
  rcases hinv.2 s hs with ⟨-, -, fi, hfi, hfip⟩
  exact hnofi fi hfi (hfip.trans hsp)

/-- C7 witness: a one-operation colon-free run, with the invariant
evaluated on the resulting store. -/
theorem C7_witness :
    (∀ op ∈ [IndexOp.indexOp "f.js" (some "function v1() \x7b\x7d") 10],
        noColon op.path)
    ∧ ((("f.js:v1:1" : String) ∈ (v1FileIndex : FileIndex).symbols) ↔
        ∃ s ∈ (runOps (fun s => s)
            [IndexOp.indexOp "f.js" (some "function v1() \x7b\x7d") 10]).codeSymbols,
          s.filePath = v1FileIndex.path ∧ s.id = "f.js:v1:1") := by
  refine ⟨by decide, ?_⟩
  have h := C7_amended (fun s => s)
    [IndexOp.indexOp "f.js" (some "function v1() \x7b\x7d") 10]
    (by intro op hop; rcases List.mem_singleton.mp hop with rfl; decide)
  exact h.1 v1FileIndex (by decide) "f.js:v1:1"

/-! ### Watcher debounce (claim C9) -/

/-- A filter that only drops entries failing the search predicate does
not change the result of `find?`. -/
theorem find?_filter_of_imp {α : Type} (l : List α) (pred q : α → Bool)
    (h : ∀ x, pred x = true → q x = true) :
    (l.filter q).find? pred = l.find? pred := by
  induction l with
  | nil => rfl
  | cons x xs ih =>
    by_cases hq : q x = true
    · rw [List.filter_cons_of_pos hq]
      by_cases hp : pred x = true
      · rw [List.find?_cons_of_pos _ hp, List.find?_cons_of_pos _ hp]
      · rw [List.find?_cons_of_neg _ (by simpa using hp),
          List.find?_cons_of_neg _ (by simpa using hp), ih]
    · have hp : ¬pred x = true := fun hpx => hq (h x hpx)
      rw [List.filter_cons_of_neg (by simpa using hq),
        List.find?_cons_of_neg _ (by simpa using hp), ih]

/-- With distinct keys, a key determines its entry. -/
theorem nodup_key_inj {α β : Type} {l : List (α × β)}
    (h : (l.map (·.1)).Nodup) {e1 e2 : α × β}
    (h1 : e1 ∈ l) (h2 : e2 ∈ l) (hk : e1.1 = e2.1) : e1 = e2 :=
  List.inj_on_of_nodup_map h h1 h2 hk

/-- Setting a path's timer makes it the one read back. -/
theorem timersGet_timersSet_self (p : String) (t : Nat) (m : List (String × Nat)) :
    timersGet p (timersSet p t m) = some t := by
  unfold timersGet timersSet
  rw [List.find?_append]
  have h1 : (m.filter (fun e => !(e.1 == p))).find? (fun e => e.1 == p) = none :=
    List.find?_eq_none.mpr (fun x hx => by
      have h2 := (List.mem_filter.mp hx).2
      simp at h2 ⊢
      exact h2)
  rw [h1]
  simp [List.find?]

/-- Setting one path's timer leaves other paths' reads unchanged. -/
theorem timersGet_timersSet_other {p p2 : String} (t : Nat)
    (m : List (String × Nat)) (hne : p2 ≠ p) :
    timersGet p2 (timersSet p t m) = timersGet p2 m := by
  unfold timersGet timersSet
  rw [List.find?_append, find?_filter_of_imp]
  · have h2 : ([(p, t)] : List (String × Nat)).find? (fun e => e.1 == p2) = none := by
      simp [List.find?, beq_eq_false_iff_ne.mpr (Ne.symm hne)]
    rw [h2]
    cases m.find? (fun e => e.1 == p2) <;> rfl
  · intro x hx
    simp at hx ⊢
    rw [hx]
    exact hne

/-- Deleting one path's timer leaves other paths' reads unchanged. -/
theorem timersGet_timersDelete_other {p p2 : String}
    (m : List (String × Nat)) (hne : p2 ≠ p) :
    timersGet p2 (timersDelete p m) = timersGet p2 m := by
  unfold timersGet timersDelete
  rw [find?_filter_of_imp]
  intro x hx
  simp at hx ⊢
  rw [hx]
  exact hne

/-- A successful map read exhibits its entry. -/
theorem timersGet_exists {p : String} {t : Nat} {m : List (String × Nat)}
    (h : timersGet p m = some t) : (p, t) ∈ m := by
  unfold timersGet at h
  cases hf : m.find? (fun e => e.1 == p) with
  | none => rw [hf] at h; cases h
  | some d =>
    rw [hf] at h
    have hd1 : d.1 = p := by simpa using List.find?_some hf
    have hd2 : d.2 = t := by simpa using h
    have hmem := List.mem_of_find?_eq_some hf
    cases d
    cases hd1
    cases hd2
    exact hmem

/-- Watcher sanity invariant: pending timeout handles are distinct,
every pending timeout is the one its path's map entry records, every
map entry is backed by a pending timeout, and all handles are below the
freshness counter. -/
def WInv (st : WatcherState) : Prop :=
  (st.pending.map (·.1)).Nodup
  ∧ (∀ e ∈ st.pending, timersGet e.2 st.debounceTimers = some e.1)
  ∧ (∀ d ∈ st.debounceTimers, (d.2, d.1) ∈ st.pending)
  ∧ (∀ e ∈ st.pending, e.1 < st.nextTimer)

/-- Handle-freshness plus distinctness survives appending a fresh
timeout. -/
theorem nodup_fst_append_fresh {l : List (Nat × String)} {n : Nat} {p : String}
    (h : (l.map (·.1)).Nodup) (hfresh : ∀ e ∈ l, e.1 < n) :
    ((l ++ [(n, p)]).map (·.1)).Nodup := by
  rw [List.map_append, List.nodup_append]
  refine ⟨h, List.nodup_singleton _, ?_⟩
  intro a ha hb
  rcases List.mem_map.mp ha with ⟨e, he, rfl⟩
  have hb2 : e.1 = n := by simpa using hb
  exact absurd hb2 (Nat.ne_of_lt (hfresh e he))

/-- Distinct handles survive any filtering. -/
theorem nodup_fst_filter {q : Nat × String → Bool} {l : List (Nat × String)}
    (h : (l.map (·.1)).Nodup) : ((l.filter q).map (·.1)).Nodup :=
  List.Nodup.sublist (List.Sublist.map _ (List.filter_sublist l)) h

/-- `handleFileChange` preserves the invariant: the existing timer (if
any) is cleared before the fresh one is scheduled. -/
theorem winv_handleFileChange (p : String) (st : WatcherState) (hinv : WInv st) :
    WInv (handleFileChange p st) := by
  unfold handleFileChange
  cases hc : watcherSupportedExtensions.contains (extnameOf p) with
  | false => simpa [hc] using hinv
  | true =>
    simp only [hc, Bool.not_true, Bool.false_eq_true, if_false]
    rcases hinv with ⟨h1, h2, h3, h4⟩
    cases hget : timersGet p st.debounceTimers with
    | none =>
      dsimp only
      refine ⟨?_, ?_, ?_, ?_⟩
      · exact nodup_fst_append_fresh h1 h4
      · intro e he
        rcases List.mem_append.mp he with he1 | he1
        · have hnp : e.2 ≠ p := by
            intro hep
            have hx := h2 e he1
            rw [hep, hget] at hx
            cases hx
          rw [timersGet_timersSet_other _ _ hnp]
          exact h2 e he1
        · have heq : e = (st.nextTimer, p) := List.mem_singleton.mp he1
          subst heq
          exact timersGet_timersSet_self p st.nextTimer st.debounceTimers
      · intro d hd
        simp only [timersSet] at hd
        rcases List.mem_append.mp hd with hd1 | hd1
        · exact List.mem_append.mpr (Or.inl (h3 d (List.mem_filter.mp hd1).1))
        · have heq : d = (p, st.nextTimer) := List.mem_singleton.mp hd1
          subst heq
          exact List.mem_append.mpr (Or.inr (List.mem_singleton.mpr rfl))
      · intro e he
        rcases List.mem_append.mp he with he1 | he1
        · exact Nat.lt_trans (h4 e he1) (Nat.lt_succ_self _)
        · have heq : e = (st.nextTimer, p) := List.mem_singleton.mp he1
          subst heq
          exact Nat.lt_succ_self _
    | some t0 =>
      dsimp only
      have hmem0 : (t0, p) ∈ st.pending := h3 (p, t0) (timersGet_exists hget)
      refine ⟨?_, ?_, ?_, ?_⟩
      · exact nodup_fst_append_fresh (nodup_fst_filter h1)
          (fun e he => h4 e (List.mem_of_mem_filter he))
      · intro e he
        rcases List.mem_append.mp he with he1 | he1
        · have he2 := List.mem_filter.mp he1
          have hnt : e.1 ≠ t0 := by simpa using he2.2
          have hnp : e.2 ≠ p := by
            intro hep
            have hx := h2 e he2.1
            rw [hep, hget] at hx
            exact hnt (Option.some.inj hx).symm
          rw [timersGet_timersSet_other _ _ hnp]
          exact h2 e he2.1
        · have heq : e = (st.nextTimer, p) := List.mem_singleton.mp he1
          subst heq
          exact timersGet_timersSet_self p st.nextTimer st.debounceTimers
      · intro d hd
        simp only [timersSet] at hd
        rcases List.mem_append.mp hd with hd1 | hd1
        · have hd2 := List.mem_filter.mp hd1
          have hdp : d.1 ≠ p := by simpa using hd2.2
          have hpend := h3 d hd2.1
          have hdt0 : d.2 ≠ t0 := by
            intro hdt
            have heq2 : (d.2, d.1) = (t0, p) :=
              nodup_key_inj h1 hpend hmem0 (by simpa using hdt)
            exact hdp (congrArg Prod.snd heq2)
          refine List.mem_append.mpr (Or.inl (List.mem_filter.mpr ⟨hpend, ?_⟩))
          simpa using hdt0
        · have heq : d = (p, st.nextTimer) := List.mem_singleton.mp hd1
          subst heq
          exact List.mem_append.mpr (Or.inr (List.mem_singleton.mpr rfl))
      · intro e he
        rcases List.mem_append.mp he with he1 | he1
        · exact Nat.lt_trans (h4 e (List.mem_of_mem_filter he1)) (Nat.lt_succ_self _)
        · have heq : e = (st.nextTimer, p) := List.mem_singleton.mp he1
          subst heq
          exact Nat.lt_succ_self _

/-- A timeout firing preserves the invariant: the fired entry leaves
both the pending set and the map. -/
theorem winv_fireTimer (t : Nat) (st : WatcherState) (hinv : WInv st) :
    WInv (fireTimer t st) := by
  unfold fireTimer
  rcases hinv with ⟨h1, h2, h3, h4⟩
  cases hfind : st.pending.find? (fun e => e.1 == t) with
  | none => exact ⟨h1, h2, h3, h4⟩
  | some e0 =>
    have hmem0 : e0 ∈ st.pending := List.mem_of_find?_eq_some hfind
    have ht0 : e0.1 = t := by simpa using List.find?_some hfind
    dsimp only
    refine ⟨nodup_fst_filter h1, ?_, ?_, ?_⟩
    · intro e he
      have he2 := List.mem_filter.mp he
      have hnt : e.1 ≠ t := by simpa [clearTimeout] using he2.2
      have hne : e.2 ≠ e0.2 := by
        intro hep
        have hx := h2 e he2.1
        have hy := h2 e0 hmem0
        rw [hep] at hx
        exact hnt ((Option.some.inj (hx.symm.trans hy)).trans ht0)
      rw [timersGet_timersDelete_other _ hne]
      exact h2 e he2.1
    · intro d hd
      simp only [timersDelete] at hd
      have hd2 := List.mem_filter.mp hd
      have hdp : d.1 ≠ e0.2 := by simpa using hd2.2
      have hpend := h3 d hd2.1
      have hdt : d.2 ≠ t := by
        intro hdt
        have heq2 : (d.2, d.1) = e0 :=
          nodup_key_inj h1 hpend hmem0 (by simp [hdt, ht0])
        exact hdp (congrArg Prod.snd heq2)
      refine List.mem_filter.mpr ⟨hpend, ?_⟩
      simpa [clearTimeout] using hdt
    · intro e he
      exact h4 e (List.mem_of_mem_filter he)

/-- `handleFileRemove` preserves the invariant. -/
theorem winv_handleFileRemove (p : String) (st : WatcherState) (hinv : WInv st) :
    WInv (handleFileRemove p st) := by
  unfold handleFileRemove
  cases hc : watcherSupportedExtensions.contains (extnameOf p) with
  | false => simpa [hc] using hinv
  | true =>
    simp only [hc, Bool.not_true, Bool.false_eq_true, if_false]
    rcases hinv with ⟨h1, h2, h3, h4⟩
    cases hget : timersGet p st.debounceTimers with
    | none => exact ⟨h1, h2, h3, h4⟩
    | some t0 =>
      dsimp only
      have hmem0 : (t0, p) ∈ st.pending := h3 (p, t0) (timersGet_exists hget)
      refine ⟨nodup_fst_filter h1, ?_, ?_, ?_⟩
      · intro e he
        have he2 := List.mem_filter.mp he
        have hnt : e.1 ≠ t0 := by simpa [clearTimeout] using he2.2
        have hnp : e.2 ≠ p := by
          intro hep
          have hx := h2 e he2.1
          rw [hep, hget] at hx
          exact hnt (Option.some.inj hx).symm
        rw [timersGet_timersDelete_other _ hnp]
        exact h2 e he2.1
      · intro d hd
        simp only [timersDelete] at hd
        have hd2 := List.mem_filter.mp hd
        have hdp : d.1 ≠ p := by simpa using hd2.2
        have hpend := h3 d hd2.1
        have hdt : d.2 ≠ t0 := by
          intro hdt
          have heq2 : (d.2, d.1) = (t0, p) :=
            nodup_key_inj h1 hpend hmem0 (by simpa using hdt)
          exact hdp (congrArg Prod.snd heq2)
        refine List.mem_filter.mpr ⟨hpend, ?_⟩
        simpa [clearTimeout] using hdt
      · intro e he
        exact h4 e (List.mem_of_mem_filter he)

/-- `stop` preserves the invariant; in fact it leaves no pending
timeout at all. -/
theorem winv_stopWatcher (st : WatcherState) (hinv : WInv st) :
    WInv (stopWatcher st) := by
  rcases hinv with ⟨h1, h2, h3, h4⟩
  have hempty : ∀ e ∈ (stopWatcher st).pending, False := by
    intro e he
    have he2 := List.mem_filter.mp he
    have hx := h2 e he2.1
    have hex := timersGet_exists hx
    have : st.debounceTimers.any (fun d => d.2 == e.1) = true :=
      List.any_eq_true.mpr ⟨(e.2, e.1), hex, by simp⟩
    simp [this] at he2
  refine ⟨nodup_fst_filter h1, ?_, ?_, ?_⟩
  · intro e he
    exact absurd (hempty e he) not_false
  · intro d hd
    exact absurd hd (List.not_mem_nil d)
  · intro e he
    exact absurd (hempty e he) not_false

/-- Each watcher transition preserves the invariant. -/
theorem winv_watchStep (st : WatcherState) (ev : WatchEvent) (hinv : WInv st) :
    WInv (watchStep st ev) := by
  cases ev with
  | change p => exact winv_handleFileChange p st hinv
  | unlinkEv p => exact winv_handleFileRemove p st hinv
  | fire t => exact winv_fireTimer t st hinv
  | stopEv => exact winv_stopWatcher st hinv

/-- The invariant holds after any event sequence. -/
theorem winv_runWatch (es : List WatchEvent) : WInv (runWatch es) := by
  suffices h : ∀ (l : List WatchEvent) (st : WatcherState), WInv st →
      WInv (l.foldl watchStep st) by
    refine h es {} ⟨List.nodup_nil, ?_, ?_, ?_⟩
    · intro e he; exact absurd he (List.not_mem_nil e)
    · intro d hd; exact absurd hd (List.not_mem_nil d)
    · intro e he; exact absurd he (List.not_mem_nil e)
  intro l
  induction l with
  | nil => intro st hst; exact hst
  | cons ev l ih => intro st hst; exact ih _ (winv_watchStep st ev hst)

/-- C9: after any event sequence, (a) at most one debounce timeout is
pending per path — a later change event resets the existing timeout
rather than stacking a second one — and (b) when a pending timeout for
a path fires, `indexFile` is invoked exactly once for that path and no
timeout remains pending for it until a new change event schedules
one. -/
theorem C9_debounce (es : List WatchEvent) :
    (∀ p t1 t2, (t1, p) ∈ (runWatch es).pending →
        (t2, p) ∈ (runWatch es).pending → t1 = t2)
    ∧ ∀ t p, (t, p) ∈ (runWatch es).pending →
        (runWatch (es ++ [WatchEvent.fire t])).indexedCalls =
            (runWatch es).indexedCalls ++ [p]
          ∧ ∀ t2, (t2, p) ∉ (runWatch (es ++ [WatchEvent.fire t])).pending := by
  have hinv := winv_runWatch es
  constructor
  · intro p t1 t2 hm1 hm2
    have g1 := hinv.2.1 (t1, p) hm1
    have g2 := hinv.2.1 (t2, p) hm2
    exact Option.some.inj (g1.symm.trans g2)
  · intro t p hmem
    have hrw : runWatch (es ++ [WatchEvent.fire t]) = fireTimer t (runWatch es) := by
      rw [runWatch, List.foldl_append]
      rfl
    rw [hrw]
    cases hfind : (runWatch es).pending.find? (fun e => e.1 == t) with
    | none =>
      have hx := List.find?_eq_none.mp hfind (t, p) hmem
      simp at hx
    | some e0 =>
      have hmeme := List.mem_of_find?_eq_some hfind
      have het : e0.1 = t := by simpa using List.find?_some hfind
      have heq : e0 = (t, p) := nodup_key_inj hinv.1 hmeme hmem (by simpa using het)
      constructor
      · simp only [fireTimer, hfind]
        rw [heq]
      · intro t2 hmem2
        simp only [fireTimer, hfind] at hmem2
        have h3 := List.mem_filter.mp hmem2
        have g1 := hinv.2.1 (t2, p) h3.1
        have g2 := hinv.2.1 (t, p) hmem
        have ht2 : t2 = t := Option.some.inj (g1.symm.trans g2)
        rw [ht2] at h3
        simp [clearTimeout] at h3

/-- Witness for C9: two change events on `a.ts` leave exactly the
single pending timer `(1, a.ts)` (the timer `0` scheduled by the first
event was reset); firing it appends one `indexFile("a.ts")` call and
leaves no pending timer for the path. -/
theorem C9_witness :
    ((1, "a.ts") ∈
        (runWatch [WatchEvent.change "a.ts", WatchEvent.change "a.ts"]).pending)
    ∧ ((runWatch ([WatchEvent.change "a.ts", WatchEvent.change "a.ts"]
            ++ [WatchEvent.fire 1])).indexedCalls =
        (runWatch [WatchEvent.change "a.ts",
            WatchEvent.change "a.ts"]).indexedCalls ++ ["a.ts"])
    ∧ ∀ t2, (t2, "a.ts") ∉
        (runWatch ([WatchEvent.change "a.ts", WatchEvent.change "a.ts"]
            ++ [WatchEvent.fire 1])).pending :=
  ⟨by decide,
    (C9_debounce [WatchEvent.change "a.ts", WatchEvent.change "a.ts"]).2
      1 "a.ts" (by decide)⟩

end ContextForge
